import Mathlib

/-!
# Verification of the hotdrink `PropertyModel` core (`src/hd/system/pm.ts`)

This file gives a shallow embedding of the `PropertyModel` class of
`src/src/hd/system/pm.ts` and proves or refutes the frozen claims about it.

The repository sources under `src/` contain only `pm.ts` (the property model),
`array.ts` (the array component, out of scope of the claims) and a tutorial
page.  The collaborating modules that `pm.ts` imports (`hd.utility`,
`hd.graph`, `hd.plan`, `hd.reactive`, `hd.model`, `hd.enable`) are not in
`src/`; where the embedding needs them they are modelled from the
specification and marked `Modelled from the spec:` in their doc comments.

Conventions of the embedding:
* JavaScript dictionaries are association lists (first occurrence wins);
  `u.StringSet` dictionaries-used-as-sets are duplicate-free lists in
  insertion order; `u.ArraySet` is a list with membership-guarded insertion.
* A JavaScript `TypeError` (property access on `null`/`undefined`) is a crash;
  functions that can crash return `Option PMState` and crashing paths
  return `none`.
* The planner's strength order is a list of constraint ids, weakest first;
  `setMaxStrength` moves an id to the strong (last) end.
* Ghost instrumentation fields (`solvedLog`, `reportLog`, `executed`) record
  the calls to `solved.set`, `Context.reportUpdates` and method activations;
  the TypeScript state has no such fields, they only observe event order.
-/

set_option linter.unusedVariables false
set_option linter.unnecessarySeqFocus false

namespace HotDrink

/-- Optional level of a variable or constraint (`m.Optional`): initial
strength placement.  `Default` is the falsy enum member. -/
inductive Optional where
  | Max : Optional
  | Min : Optional
  | Default : Optional
deriving DecidableEq, Repr

/-- Modelled from the spec: identifiers.  `pm.ts` keys its dictionaries by
strings; the ids of the implicit stay constraint and stay method of a variable
are produced by `g.stayConstraint` / `g.stayMethod` (missing `hd.graph`
module) and never collide with user constraint or method ids.  The embedding
makes this id scheme explicit with disjoint constructors. -/
inductive Id where
  | user : String → Id
  | stayCon : String → Id
  | stayMeth : String → Id
deriving DecidableEq, Repr

/-- `g.isStayConstraint`. -/
def Id.isStayCon : Id → Bool
  | .stayCon _ => true
  | _ => false

/-- `g.isNotStayMethod` is the negation of this predicate. -/
def Id.isStayMeth : Id → Bool
  | .stayMeth _ => true
  | _ => false

/-- `g.stayConstraint(vid)`. -/
def stayConstraint (vid : String) : Id := Id.stayCon vid

/-- `g.stayMethod(vid)`. -/
def stayMethod (vid : String) : Id := Id.stayMeth vid

section AList

variable {κ : Type} {α : Type} [DecidableEq κ]

/-- Dictionary lookup: first entry with the given key. -/
def alookup : List (κ × α) → κ → Option α
  | [], _ => none
  | p :: l, k => if p.1 = k then some p.2 else alookup l k

/-- Dictionary `delete`: removes the first entry with the given key. -/
def eraseKey : List (κ × α) → κ → List (κ × α)
  | [], _ => []
  | p :: l, k => if p.1 = k then l else p :: eraseKey l k

/-- In-place update of the first entry with the given key. -/
def setValue : List (κ × α) → κ → α → List (κ × α)
  | [], _, _ => []
  | p :: l, k, v => if p.1 = k then (k, v) :: l else p :: setValue l k v

/-- Number of entries with the given key. -/
def countKey : List (κ × α) → κ → Nat
  | [], _ => 0
  | p :: l, k => (if p.1 = k then 1 else 0) + countKey l k

@[simp] theorem alookup_nil (k : κ) : alookup ([] : List (κ × α)) k = none := rfl

theorem alookup_cons (p : κ × α) (l : List (κ × α)) (k : κ) :
    alookup (p :: l) k = if p.1 = k then some p.2 else alookup l k := rfl

theorem alookup_append (l₁ l₂ : List (κ × α)) (k : κ) :
    alookup (l₁ ++ l₂) k =
      match alookup l₁ k with
      | some v => some v
      | none => alookup l₂ k := by
  induction l₁ with
  | nil => simp [alookup]
  | cons p l ih =>
      by_cases h : p.1 = k <;> simp [alookup, h, ih]

theorem alookup_eraseKey_ne (l : List (κ × α)) (k k' : κ) (h : k ≠ k') :
    alookup (eraseKey l k) k' = alookup l k' := by
  induction l with
  | nil => rfl
  | cons p l ih =>
      by_cases hp : p.1 = k
      · have hne : ¬ p.1 = k' := by rw [hp]; exact h
        simp [eraseKey, hp, alookup, hne, h]
      · simp only [eraseKey, hp, if_neg hp, alookup]
        by_cases hp' : p.1 = k' <;> simp [hp', ih]

theorem alookup_setValue_ne (l : List (κ × α)) (k k' : κ) (v : α) (h : k ≠ k') :
    alookup (setValue l k v) k' = alookup l k' := by
  induction l with
  | nil => rfl
  | cons p l ih =>
      by_cases hp : p.1 = k
      · have hne : ¬ p.1 = k' := by rw [hp]; exact h
        simp [setValue, hp, alookup, hne, h]
      · simp only [setValue, if_neg hp, alookup]
        by_cases hp' : p.1 = k' <;> simp [hp', ih]

theorem alookup_setValue_isSome (l : List (κ × α)) (k k' : κ) (v : α) :
    (alookup (setValue l k v) k').isSome = (alookup l k').isSome := by
  induction l with
  | nil => rfl
  | cons p l ih =>
      by_cases hp : p.1 = k
      · by_cases hk : k = k'
        · subst hk; simp [setValue, hp, alookup]
        · have hne : ¬ p.1 = k' := by rw [hp]; exact hk
          simp [setValue, hp, alookup, hne, hk, alookup_setValue_ne]
      · simp only [setValue, if_neg hp, alookup]
        by_cases hp' : p.1 = k' <;> simp [hp', ih]

theorem countKey_append (l₁ l₂ : List (κ × α)) (k : κ) :
    countKey (l₁ ++ l₂) k = countKey l₁ k + countKey l₂ k := by
  induction l₁ with
  | nil => simp [countKey]
  | cons p l ih =>
      by_cases h : p.1 = k <;> simp [countKey, h, ih] <;> omega

theorem countKey_eraseKey_ne (l : List (κ × α)) (k k' : κ) (h : k ≠ k') :
    countKey (eraseKey l k) k' = countKey l k' := by
  induction l with
  | nil => rfl
  | cons p l ih =>
      by_cases hp : p.1 = k
      · have hne : ¬ p.1 = k' := by rw [hp]; exact h
        simp [eraseKey, hp, countKey, hne, h]
      · simp [eraseKey, hp, countKey, ih]

theorem countKey_setValue (l : List (κ × α)) (k k' : κ) (v : α) :
    countKey (setValue l k v) k' = countKey l k' := by
  induction l with
  | nil => rfl
  | cons p l ih =>
      by_cases hp : p.1 = k
      · by_cases hk : k = k'
        · subst hk; simp [setValue, countKey, hp]
        · have hne : ¬ p.1 = k' := by rw [hp]; exact hk
          simp [setValue, countKey, hp, hne, hk]
      · simp [setValue, hp, countKey, ih]

theorem countKey_eq_zero_of_alookup_none (l : List (κ × α)) (k : κ)
    (h : alookup l k = none) : countKey l k = 0 := by
  induction l with
  | nil => rfl
  | cons p l ih =>
      by_cases hp : p.1 = k
      · simp [alookup, hp] at h
      · simp [alookup, hp] at h
        simp [countKey, hp, ih h]

theorem alookup_isSome_of_countKey_pos (l : List (κ × α)) (k : κ)
    (h : 0 < countKey l k) : (alookup l k).isSome := by
  induction l with
  | nil => simp [countKey] at h
  | cons p l ih =>
      by_cases hp : p.1 = k
      · simp [alookup, hp]
      · simp [countKey, hp] at h
        simp [alookup, hp, ih h]

theorem alookup_setValue_self (l : List (κ × α)) (k : κ) (v : α)
    (h : (alookup l k).isSome) : alookup (setValue l k v) k = some v := by
  induction l with
  | nil => simp [alookup] at h
  | cons p l ih =>
      by_cases hp : p.1 = k
      · simp [setValue, hp, alookup]
      · simp [alookup, hp] at h
        simp [setValue, hp, alookup, ih h]

theorem setValue_setValue (l : List (κ × α)) (k : κ) (v w : α) :
    setValue (setValue l k v) k w = setValue l k w := by
  induction l with
  | nil => rfl
  | cons p l ih =>
      by_cases hp : p.1 = k
      · simp [setValue, hp]
      · simp [setValue, hp, ih]

theorem setValue_lookup_self (l : List (κ × α)) (k : κ) (c : α)
    (h : alookup l k = some c) : setValue l k c = l := by
  induction l with
  | nil => rfl
  | cons p l ih =>
      by_cases hp : p.1 = k
      · subst hp
        simp [alookup] at h
        simp [setValue, ← h]
      · simp [alookup, hp] at h
        simp [setValue, hp, ih h]

theorem setValue_append_of_none (l : List (κ × α)) (k : κ) (c v : α)
    (h : alookup l k = none) :
    setValue (l ++ [(k, c)]) k v = l ++ [(k, v)] := by
  induction l with
  | nil => simp [setValue]
  | cons p l ih =>
      by_cases hp : p.1 = k
      · simp [alookup, hp] at h
      · simp [alookup, hp] at h
        simp [setValue, hp, ih h]

theorem eraseKey_append_of_none (l : List (κ × α)) (k : κ) (c : α)
    (h : alookup l k = none) : eraseKey (l ++ [(k, c)]) k = l := by
  induction l with
  | nil => simp [eraseKey]
  | cons p l ih =>
      by_cases hp : p.1 = k
      · simp [alookup, hp] at h
      · simp [alookup, hp] at h
        simp [eraseKey, hp, ih h]

theorem alookup_append_self_of_none (l : List (κ × α)) (k : κ) (c : α)
    (h : alookup l k = none) : alookup (l ++ [(k, c)]) k = some c := by
  rw [alookup_append, h]
  simp [alookup]

theorem alookup_append_singleton_ne (l : List (κ × α)) (k k' : κ) (v : α)
    (h : ¬ k = k') : alookup (l ++ [(k, v)]) k' = alookup l k' := by
  rw [alookup_append]
  cases alookup l k' <;> simp [alookup, h]

theorem countKey_eraseKey_self (l : List (κ × α)) (k : κ) :
    countKey (eraseKey l k) k = countKey l k - 1 := by
  induction l with
  | nil => rfl
  | cons p l ih =>
      by_cases hp : p.1 = k
      · simp [eraseKey, hp, countKey]
      · simp [eraseKey, hp, countKey, ih]

theorem countKey_pos_of_alookup_isSome (l : List (κ × α)) (k : κ)
    (h : (alookup l k).isSome) : 0 < countKey l k := by
  induction l with
  | nil => simp [alookup] at h
  | cons p l ih =>
      by_cases hp : p.1 = k
      · simp [countKey, hp]
      · simp [alookup, hp] at h
        simp [countKey, hp, ih h]

theorem alookup_none_of_countKey_zero (l : List (κ × α)) (k : κ)
    (h : countKey l k = 0) : alookup l k = none := by
  induction l with
  | nil => rfl
  | cons p l ih =>
      by_cases hp : p.1 = k
      · simp [countKey, hp] at h
      · simp [countKey, hp] at h
        simp [alookup, hp, ih h]

/-- `u.arraySet.add`: append unless already a member. -/
def arrayAdd [DecidableEq β] (l : List β) (x : β) : List β :=
  if x ∈ l then l else l ++ [x]

/-- `u.stringSet` insertion (`set[k] = true` on a dictionary used as set):
insertion-ordered, duplicate-free. -/
def setAdd [DecidableEq β] (l : List β) (x : β) : List β :=
  if x ∈ l then l else l ++ [x]

end AList

/-! ## Data model (`hd.model`, modelled from the spec where missing) -/

/-- Modelled from the spec: `m.Variable`, restricted to the fields the claims
exercise.  `pending` is the pending flag; `resolved` says whether the
variable's currently attached promise has already resolved (a synchronous
method's output promise); `source` is the dataflow-root flag.  Values and
enablement labels are not modelled — no claim depends on them. -/
structure Variable where
  id : String
  optional : Optional
  pending : Bool
  resolved : Bool
  source : Bool
deriving DecidableEq, Repr

/-- Modelled from the spec: `m.Method` — ordered inputs and outputs (already
mapped to variable ids, as `pm.ts` does with `map(u.getId)`).  `sync` says the
method's returned promise is already resolved when it is committed; the method
function itself is opaque and not modelled. -/
structure Method where
  id : String
  inputs : List String
  outputs : List String
  sync : Bool
deriving DecidableEq, Repr

/-- Modelled from the spec: `m.Constraint` — alternative methods and an
optional level. -/
structure Constraint where
  id : String
  methods : List Method
  optional : Optional
deriving DecidableEq, Repr

/-- JavaScript truthiness of the `m.Optional` enum (`Default` is the zero
member): used by the priority scan in `plan()`. -/
def Optional.truthy : Optional → Bool
  | .Default => false
  | _ => true

/-! ## Constraint graph (`hd.graph`, modelled from the spec) -/

/-- Modelled from the spec: one method record of the constraint graph — the
owning constraint and the input/output variable edges. -/
structure CGMethod where
  cid : Id
  inputs : List String
  outputs : List String
deriving DecidableEq, Repr

/-- Modelled from the spec: the bipartite constraint graph — variable nodes
plus method records; constraints are implicit in the method records. -/
structure ConstraintGraph where
  vars : List String
  meths : List (Id × CGMethod)
deriving DecidableEq, Repr

namespace ConstraintGraph

/-- Modelled from the spec: `addVariable` is idempotent on re-adds. -/
def addVariable (g : ConstraintGraph) (vid : String) : ConstraintGraph :=
  if vid ∈ g.vars then g else { g with vars := g.vars ++ [vid] }

/-- Modelled from the spec: `removeVariable`. -/
def removeVariable (g : ConstraintGraph) (vid : String) : ConstraintGraph :=
  { g with vars := g.vars.erase vid }

/-- Modelled from the spec: `addMethod` is idempotent on re-adds of the same
id. -/
def addMethod (g : ConstraintGraph) (mid cid : Id)
    (ins outs : List String) : ConstraintGraph :=
  if (alookup g.meths mid).isSome then g
  else { g with meths := g.meths ++ [(mid, ⟨cid, ins, outs⟩)] }

/-- Modelled from the spec: `removeMethod`; dropping the last method of a
constraint drops the (implicit) constraint. -/
def removeMethod (g : ConstraintGraph) (mid : Id) : ConstraintGraph :=
  { g with meths := eraseKey g.meths mid }

/-- Modelled from the spec: `constraintsWhichUse(v)` — the constraints owning
some method that reads or writes `v`. -/
def constraintsWhichUse (g : ConstraintGraph) (vid : String) : List Id :=
  (g.meths.filter
    (fun p => vid ∈ p.2.inputs ∨ vid ∈ p.2.outputs)).map (fun p => p.2.cid)
    |>.dedup

/-- Modelled from the spec: `constraintForMethod(m)`. -/
def constraintForMethod (g : ConstraintGraph) (mid : Id) : Option Id :=
  (alookup g.meths mid).map (fun mm => mm.cid)

/-- Modelled from the spec: `constraints()`. -/
def constraints (g : ConstraintGraph) : List Id :=
  (g.meths.map (fun p => p.2.cid)).dedup

end ConstraintGraph

/-! ## Solution graph and digraph walker (`hd.graph`, modelled from the
spec) -/

/-- Modelled from the spec: the solution graph — at most one selected method
per enforceable constraint (`selected` maps constraint id to method id),
together with the selected methods' records (its own digraph) and its
variable nodes. -/
structure SGraph where
  selected : List (Id × Id)
  meths : List (Id × CGMethod)
  vars : List String
deriving DecidableEq, Repr

namespace SGraph

/-- Modelled from the spec: `selectedForConstraint(cid)` (null = `none`). -/
def selectedForConstraint (sg : SGraph) (cid : Id) : Option Id :=
  alookup sg.selected cid

/-- Modelled from the spec: `selectMethod(cid, null)` — deselect the
constraint and drop its method from the solution graph. -/
def selectNone (sg : SGraph) (cid : Id) : SGraph :=
  match alookup sg.selected cid with
  | some mid =>
      { sg with selected := eraseKey sg.selected cid,
                meths := eraseKey sg.meths mid }
  | none => sg

end SGraph

/-- `this.sgraph.selectedForConstraint(cid)` guarded by the null check of
`doPromotions` (`! this.sgraph || ! this.sgraph.selectedForConstraint(cid)`). -/
def selectedForConstraintO (osg : Option SGraph) (cid : Id) : Option Id :=
  match osg with
  | none => none
  | some sg => sg.selectedForConstraint cid

/-- Modelled from the spec: one expansion step of the same-type
(method-to-method) walk of `g.DigraphWalker`: a method is downstream of the
accumulated set when some accumulated method writes one of its inputs. -/
def walkExpand (meths : List (Id × CGMethod)) (acc : List Id) : List Id :=
  meths.foldl
    (fun acc2 p =>
      if p.1 ∈ acc2 then acc2
      else if meths.any (fun q =>
          q.1 ∈ acc2 ∧ q.2.outputs.any (fun v => v ∈ p.2.inputs)) then
        acc2 ++ [p.1]
      else acc2)
    acc

/-- Modelled from the spec: `nodesDownstreamSameType(mids)` — the methods
(transitively, reflexively) downstream of the seed methods in the solution
graph. -/
def nodesDownstreamSameType (meths : List (Id × CGMethod)) (seeds : List Id) :
    List Id :=
  Nat.rec seeds (fun _ acc => walkExpand meths acc) meths.length

/-- Modelled from the spec: `nodesDownstreamOtherType(mids)` — the variables
downstream of the seed methods: the outputs of all downstream methods. -/
def nodesDownstreamOtherType (meths : List (Id × CGMethod)) (seeds : List Id) :
    List String :=
  (((nodesDownstreamSameType meths seeds).filterMap
      (fun mid => alookup meths mid)).map (fun mm => mm.outputs)).flatten.dedup

/-! ## Planner strength order (`hd.plan`, modelled from the spec) -/

/-- Modelled from the spec: the planner's total strength order over constraint
ids, weakest first.  `setMaxStrength` moves (or adds) an id to the strongest
end. -/
def setMaxStrength (order : List Id) (cid : Id) : List Id :=
  order.erase cid ++ [cid]

/-- Modelled from the spec: `setMinStrength` moves (or adds) an id to the
weakest end. -/
def setMinStrength (order : List Id) (cid : Id) : List Id :=
  cid :: order.erase cid

/-- Modelled from the spec: `removeOptional`. -/
def removeOptional (order : List Id) (cid : Id) : List Id :=
  order.erase cid

/-- Position of an id in the strength order (weakest first): larger rank means
stronger.  Used to model `planner.compare`. -/
def rankOf : List Id → Id → Nat
  | [], _ => 0
  | d :: rest, c => if d = c then 0 else rankOf rest c + 1

/-- Stable insertion of `c` into a strength-descending list (the behaviour of
a stable `Array.sort` with the `descending` comparator of `doPromotions`). -/
def insDesc (rank : Id → Nat) (c : Id) : List Id → List Id
  | [] => [c]
  | d :: rest => if rank d < rank c then c :: d :: rest else d :: insDesc rank c rest

/-- Sort a BFS generation by the planner's current strength, descending
(strongest first), as `sub.sort(descending)` does in `doPromotions`. -/
def sortDesc (rank : Id → Nat) (l : List Id) : List Id :=
  l.foldr (insDesc rank) []

theorem insDesc_perm (rank : Id → Nat) (c : Id) (l : List Id) :
    (insDesc rank c l).Perm (c :: l) := by
  induction l with
  | nil => exact List.Perm.refl _
  | cons d rest ih =>
      by_cases h : rank d < rank c
      · simp [insDesc, h]
      · simp only [insDesc, if_neg h]
        exact ((ih.cons d).trans (List.Perm.swap c d rest))

theorem sortDesc_perm (rank : Id → Nat) (l : List Id) :
    (sortDesc rank l).Perm l := by
  induction l with
  | nil => exact List.Perm.refl _
  | cons d rest ih =>
      exact (insDesc_perm rank d (sortDesc rank rest)).trans (ih.cons d)

/-! ## Contexts (`m.Context`, modelled from the spec) -/

/-- An endpoint of a touch dependency: a variable (standing for its stay
constraint) or a constraint, as accepted by `addTouchDependency`. -/
inductive TDEnd where
  | vari : Variable → TDEnd
  | cons : Constraint → TDEnd
deriving DecidableEq, Repr

/-- Resolve a touch-dependency endpoint to a constraint id, as
`addTouchDependency` does (`instanceof m.Variable` check). -/
def TDEnd.cid : TDEnd → Id
  | .vari vv => stayConstraint vv.id
  | .cons cc => Id.user cc.id

/-- One element of a `ComponentChanges` report: constraint, output or touch
dependency (the three classes `updateModel` dispatches on). -/
inductive CtxElem where
  | con : Constraint → CtxElem
  | out : Variable → CtxElem
  | touch : TDEnd → TDEnd → CtxElem
deriving DecidableEq, Repr

/-- Modelled from the spec: an external context (`m.Context`), reduced to the
data `updateModel` consumes: `reportUpdates()` returns `{adds, removes}`.
Contexts are identified by a numeric tag (object identity in JavaScript). -/
structure Ctx where
  tag : Nat
  adds : List CtxElem
  removes : List CtxElem
deriving DecidableEq, Repr

/-! ## Property-model state -/

/-- Ghost record of one `solved.set` call: the value written and the
`pendingCount` / `isUpdateNeeded` at the moment of the call. -/
structure SolvedSet where
  value : Bool
  pc : Nat
  needed : Bool
deriving DecidableEq, Repr

/-- The state of a `PropertyModel` (the mutable fields of the class), plus the
ghost instrumentation fields described in the header. -/
structure PMState where
  varsD : List (String × Variable)
  methodsD : List (Id × Method)
  constraintsD : List (Id × Constraint)
  cgraph : ConstraintGraph
  sgraph : Option SGraph
  topomids : List Id
  plannerOrder : List Id
  scheduleUpdateOnChange : Bool
  isUpdateScheduled : Bool
  solved : Bool
  pendingCount : Nat
  needUpdating : List Ctx
  needEnforcing : List Id
  needEvaluating : List Id
  isUpdateNeeded : Bool
  touchDeps : List (Id × List Id)
  outputVids : List (String × Nat)
  hasOptionals : Bool
  forwardEmergingSources : Bool
  solvedLog : List SolvedSet
  reportLog : List Nat
  executed : List Id
deriving DecidableEq, Repr

/-- The state after the constructor: empty graph, `solved` signal initialized
to `true`, no pending records. -/
def initState : PMState where
  varsD := []
  methodsD := []
  constraintsD := []
  cgraph := ⟨[], []⟩
  sgraph := none
  topomids := []
  plannerOrder := []
  scheduleUpdateOnChange := true
  isUpdateScheduled := false
  solved := true
  pendingCount := 0
  needUpdating := []
  needEnforcing := []
  needEvaluating := []
  isUpdateNeeded := false
  touchDeps := []
  outputVids := []
  hasOptionals := false
  forwardEmergingSources := false
  solvedLog := []
  reportLog := []
  executed := []

/-- Modelled from the spec: the abstract planner and topological sorter
(`hd.plan` and `hd.graph` are not in `src/`).  `planFn order sgraph cids`
returns the new solution graph, or `none` when a required constraint cannot
be enforced; `toposortFn cgraph sgraph order` returns the selected method ids
in topological order with strength tie-breaks.  All orchestration theorems
hold for every such pair. -/
structure PlannerOps where
  planFn : List Id → Option SGraph → List Id → Option SGraph
  toposortFn : ConstraintGraph → SGraph → List Id → List Id

namespace PropertyModel

/-- `this.solved.set(b)`, with the ghost log of the call. -/
def solvedSet (s : PMState) (b : Bool) : PMState :=
  { s with solved := b,
           solvedLog := s.solvedLog ++ [⟨b, s.pendingCount, s.isUpdateNeeded⟩] }

/-- `scheduleUpdate()`. -/
def scheduleUpdate (s : PMState) : PMState :=
  if s.isUpdateScheduled then s else { s with isUpdateScheduled := true }

/-- `recordChange()`: mark an update as needed, lower the solved signal and
schedule an update if so configured. -/
def recordChange (s : PMState) : PMState :=
  let s1 := solvedSet { s with isUpdateNeeded := true } false
  if s1.scheduleUpdateOnChange then scheduleUpdate s1 else s1

/-- `recordConstraintChange(ccid)`. -/
def recordConstraintChange (s : PMState) (ccid : Id) : PMState :=
  recordChange { s with needEnforcing := setAdd s.needEnforcing ccid }

/-- `recordVariableChange(stayid)`. -/
def recordVariableChange (s : PMState) (stayid : Id) : PMState :=
  recordChange { s with needEvaluating := setAdd s.needEvaluating stayid }

/-- `recordContextChange(ctx)`. -/
def recordContextChange (s : PMState) (ctx : Ctx) : PMState :=
  recordChange { s with needUpdating := arrayAdd s.needUpdating ctx }

/-- `removeConstraintRecords(ccid)`. -/
def removeConstraintRecords (s : PMState) (ccid : Id) : PMState :=
  { s with needEnforcing := s.needEnforcing.erase ccid,
           needEvaluating := s.needEvaluating.erase ccid }

/-- `removeContextRecords(ctx)`. -/
def removeContextRecords (s : PMState) (ctx : Ctx) : PMState :=
  { s with needUpdating := s.needUpdating.erase ctx }

/-- `addVariable(vv)`: register the variable, add it and its stay method to
the constraint graph, place the stay constraint in the strength order
according to the variable's optional level, and mark the stay as changed.
Re-adding a registered id is a no-op. -/
def addVariable (s : PMState) (vv : Variable) : PMState :=
  if (alookup s.varsD vv.id).isSome then s
  else
    let s1 := { s with varsD := s.varsD ++ [(vv.id, vv)] }
    let s2 := if vv.pending then { s1 with pendingCount := s1.pendingCount + 1 }
              else s1
    let s3 := { s2 with
      cgraph := (s2.cgraph.addVariable vv.id).addMethod
          (stayMethod vv.id) (stayConstraint vv.id) [] [vv.id] }
    let s4 :=
      match vv.optional with
      | .Max => { s3 with
          plannerOrder := setMaxStrength s3.plannerOrder (stayConstraint vv.id) }
      | .Min => { s3 with
          plannerOrder := setMinStrength s3.plannerOrder (stayConstraint vv.id) }
      | .Default => s3
    recordConstraintChange s4 (stayConstraint vv.id)

/-- `removeVariable(vv)`: only acts when the variable is registered and no
constraint in the constraint graph uses it; otherwise it is a silent no-op. -/
def removeVariable (s : PMState) (vv : Variable) : PMState :=
  if (alookup s.varsD vv.id).isSome ∧
      s.cgraph.constraintsWhichUse vv.id = [] then
    let s1 := { s with varsD := eraseKey s.varsD vv.id,
                       outputVids := eraseKey s.outputVids vv.id }
    let s2 := removeConstraintRecords s1 (stayConstraint vv.id)
    let s3 := { s2 with cgraph := s2.cgraph.removeMethod (stayMethod vv.id) }
    let s4 := { s3 with
        plannerOrder := removeOptional s3.plannerOrder (stayConstraint vv.id) }
    { s4 with cgraph := s4.cgraph.removeVariable vv.id }
  else s

/-- `addMethod(cid, mm)` (private helper of `addConstraint`). -/
def addMethodPM (s : PMState) (cid : Id) (mm : Method) : PMState :=
  if (alookup s.methodsD (Id.user mm.id)).isSome then s
  else { s with
    methodsD := s.methodsD ++ [(Id.user mm.id, mm)],
    cgraph := s.cgraph.addMethod (Id.user mm.id) cid mm.inputs mm.outputs }

/-- `removeMethod(mm)` (private helper of `removeConstraint`). -/
def removeMethodPM (s : PMState) (mm : Method) : PMState :=
  if (alookup s.methodsD (Id.user mm.id)).isSome then
    { s with methodsD := eraseKey s.methodsD (Id.user mm.id),
             cgraph := s.cgraph.removeMethod (Id.user mm.id) }
  else s

/-- `addConstraint(cc)`: register, add all methods, install the optional
strength, and mark the constraint as changed; no-op on a registered id. -/
def addConstraint (s : PMState) (cc : Constraint) : PMState :=
  if (alookup s.constraintsD (Id.user cc.id)).isSome then s
  else
    let s1 := { s with constraintsD := s.constraintsD ++ [(Id.user cc.id, cc)] }
    let s2 := cc.methods.foldl (fun t mm => addMethodPM t (Id.user cc.id) mm) s1
    let s3 :=
      match cc.optional with
      | .Max => { s2 with
          plannerOrder := setMaxStrength s2.plannerOrder (Id.user cc.id),
          hasOptionals := true }
      | .Min => { s2 with
          plannerOrder := setMinStrength s2.plannerOrder (Id.user cc.id),
          hasOptionals := true }
      | .Default => s2
    recordConstraintChange s3 (Id.user cc.id)

/-- `removeConstraint(cc)`: unregister, remove records and methods, then
deselect in the solution graph.  The source dereferences `this.sgraph`
without a null check (`this.sgraph.selectMethod(cc.id, null)`), so with no
solution graph the call throws — modelled by `none`.  The final
`enable.methodScheduled(cc.id, null)` only notifies the enablement manager
(missing `hd.enable`, outside the claims) and is not modelled. -/
def removeConstraint (s : PMState) (cc : Constraint) : Option PMState :=
  if (alookup s.constraintsD (Id.user cc.id)).isSome then
    let s1 := { s with constraintsD := eraseKey s.constraintsD (Id.user cc.id) }
    let s2 := removeConstraintRecords s1 (Id.user cc.id)
    let s3 := cc.methods.foldl (fun t mm => removeMethodPM t mm) s2
    match s3.sgraph with
    | none => none
    | some sg => some { s3 with sgraph := some (sg.selectNone (Id.user cc.id)) }
  else some s

/-- `addOutput(out)`: outputs are refcounted. -/
def addOutput (s : PMState) (out : Variable) : PMState :=
  match alookup s.outputVids out.id with
  | some n => { s with outputVids := setValue s.outputVids out.id (n + 1) }
  | none => { s with outputVids := s.outputVids ++ [(out.id, 1)] }

/-- `removeOutput(out)`: decrement the refcount, deleting the entry when it
drops from one (`undefined > 1` is false in JavaScript, so removing an
unknown id deletes nothing). -/
def removeOutput (s : PMState) (out : Variable) : PMState :=
  if (alookup s.outputVids out.id).getD 0 > 1 then
    { s with outputVids :=
        setValue s.outputVids out.id ((alookup s.outputVids out.id).getD 0 - 1) }
  else { s with outputVids := eraseKey s.outputVids out.id }

/-- `addTouchDependency(cc1, cc2)`. -/
def addTouchDependency (s : PMState) (e1 e2 : TDEnd) : PMState :=
  match alookup s.touchDeps e1.cid with
  | some deps =>
      { s with touchDeps := setValue s.touchDeps e1.cid (arrayAdd deps e2.cid) }
  | none => { s with touchDeps := s.touchDeps ++ [(e1.cid, [e2.cid])] }

/-- `removeTouchDependency(cc1, cc2)`. -/
def removeTouchDependency (s : PMState) (e1 e2 : TDEnd) : PMState :=
  match alookup s.touchDeps e1.cid with
  | some deps =>
      { s with touchDeps := setValue s.touchDeps e1.cid (deps.erase e2.cid) }
  | none => s

/-! ### Touch promotion (`doPromotions`)

`doPromotions` runs a breadth-first traversal of the touch-dependency graph
from the originating stay constraint.  The source checks
`! visited[dep] && this.constraints[dep].optional !== m.Optional.Default`:
when `dep` is not visited and not a key of `this.constraints` the property
access on `undefined` throws, so the dependency scan can crash (`none`).
The BFS `while` loops are embedded generation by generation with explicit
fuel; the claims are conditioned on (and witnessed with) a successful run. -/

/-- The inner `deps.forEach` of one BFS generation: push unvisited
dependencies whose constraint's optional level is not `Default`, marking them
visited at once. -/
def depsScan (s : PMState) :
    List Id → List Id → List Id → Option (List Id × List Id)
  | [], sub, visited => some (sub, visited)
  | dep :: ds, sub, visited =>
      if dep ∈ visited then depsScan s ds sub visited
      else
        match alookup s.constraintsD dep with
        | none => none
        | some cc =>
            if cc.optional ≠ Optional.Default then
              depsScan s ds (sub ++ [dep]) (dep :: visited)
            else depsScan s ds sub visited

/-- The inner `while (i < l)` of `doPromotions`: scan the touch dependencies
of every member of the current generation. -/
def genScan (s : PMState) :
    List Id → List Id → List Id → Option (List Id × List Id)
  | [], sub, visited => some (sub, visited)
  | vid :: rest, sub, visited =>
      match depsScan s ((alookup s.touchDeps vid).getD []) sub visited with
      | none => none
      | some (sub', visited') => genScan s rest sub' visited'

/-- The outer `while (i < promote.length)` of `doPromotions`: expand
generation after generation, sorting each new generation by the planner's
current strength descending before appending it to `promote`. -/
def bfsGens (s : PMState) :
    Nat → List Id → List Id → List Id → Option (List Id)
  | _, [], _, acc => some acc
  | 0, _ :: _, _, _ => none
  | fuel + 1, gen, visited, acc =>
      match genScan s gen [] visited with
      | none => none
      | some (sub, visited') =>
          let next := sortDesc (rankOf s.plannerOrder) sub
          bfsGens s fuel next visited' (acc ++ next)

/-- The collection phase of `doPromotions(originalVid)`: the `promote` array
after the BFS (first element is the originating constraint). -/
def doPromotionsCollect (fuel : Nat) (s : PMState) (originalVid : Id) :
    Option (List Id) :=
  bfsGens s fuel [originalVid] [originalVid] [originalVid]

/-- One iteration of the final reverse loop of `doPromotions`: promote the
constraint to maximum strength and mark it as needing enforcement when it has
no currently selected method (or there is no solution graph). -/
def promoteStep (s : PMState) (cid : Id) : PMState :=
  let s1 := { s with plannerOrder := setMaxStrength s.plannerOrder cid }
  if (selectedForConstraintO s1.sgraph cid).isSome then s1
  else recordConstraintChange s1 cid

/-- `doPromotions(originalVid)`: collect, then walk the collected ids in
reverse, promoting each. -/
def doPromotions (fuel : Nat) (s : PMState) (originalVid : Id) :
    Option PMState :=
  (doPromotionsCollect fuel s originalVid).map
    (fun promote => promote.reverse.foldl promoteStep s)

/-- `variableTouched(vv)`. -/
def variableTouched (fuel : Nat) (s : PMState) (vv : Variable) :
    Option PMState :=
  doPromotions fuel s (stayConstraint vv.id)

/-- `variableChanged(vv)`: the same promotions, then record the stay
constraint as needing evaluation. -/
def variableChanged (fuel : Nat) (s : PMState) (vv : Variable) :
    Option PMState :=
  (doPromotions fuel s (stayConstraint vv.id)).map
    (fun s1 => recordVariableChange s1 (stayConstraint vv.id))

/-! ### Variable events -/

/-- The `settled` branch of `onNextVariableChange`: decrement `pendingCount`
when positive and re-raise `solved` when it reaches zero with no update
needed. -/
def settledEvent (s : PMState) : PMState :=
  if s.pendingCount > 0 then
    let s1 := { s with pendingCount := s.pendingCount - 1 }
    if s1.pendingCount = 0 ∧ s1.isUpdateNeeded = false then solvedSet s1 true
    else s1
  else s

/-- The kinds of `m.VariableEvent` dispatched by `onNextVariableChange`. -/
inductive VariableEventType where
  | touched : VariableEventType
  | changed : VariableEventType
  | pending : VariableEventType
  | settled : VariableEventType
deriving DecidableEq, Repr

/-- `onNextVariableChange(event)`. -/
def onNextVariableChange (fuel : Nat) (s : PMState)
    (ty : VariableEventType) (vv : Variable) : Option PMState :=
  match ty with
  | .touched => variableTouched fuel s vv
  | .changed => variableChanged fuel s vv
  | .pending => some { s with pendingCount := s.pendingCount + 1 }
  | .settled => some (settledEvent s)

/-! ### Evaluation (`evaluate`) -/

/-- Update the stored record of a registered variable (the registry maps ids
to `m.Variable` objects; mutating the object rewrites the entry). -/
def setVar (s : PMState) (vid : String) (vv : Variable) : PMState :=
  { s with varsD := setValue s.varsD vid vv }

/-- Modelled from the spec: `variable.commitPromise()` — committing a
resolved pending promise settles the variable, which fires the `settled`
event handled by `onNextVariableChange`.  Accessing an unregistered variable
(`this.variables[vid]`) throws. -/
def commitPromiseVar (s : PMState) (vid : String) : Option PMState :=
  match alookup s.varsD vid with
  | none => none
  | some vv =>
      if vv.pending ∧ vv.resolved then
        some (settledEvent (setVar s vid { vv with pending := false }))
      else some s

/-- Commit the promises of a list of downstream variables, in order. -/
def commitAll (s : PMState) : List String → Option PMState
  | [] => some s
  | vid :: rest =>
      match commitPromiseVar s vid with
      | none => none
      | some s1 => commitAll s1 rest

/-- Modelled from the spec: mark one output variable of an activated method
pending (promise installation fires the `pending` variable event);
`resolved` records whether the method's promise is synchronous. -/
def pendOutput (sync : Bool) (s : PMState) (vid : String) : Option PMState :=
  match alookup s.varsD vid with
  | none => none
  | some vv =>
      if vv.pending then some (setVar s vid { vv with resolved := sync })
      else
        some { setVar s vid { vv with pending := true, resolved := sync } with
               pendingCount := s.pendingCount + 1 }

/-- Install promises on all outputs of an activated method, in order. -/
def pendAll (sync : Bool) (s : PMState) : List String → Option PMState
  | [] => some s
  | vid :: rest =>
      match pendOutput sync s vid with
      | none => none
      | some s1 => pendAll sync s1 rest

/-- `this.methods[mid].activate()`: record the activation (ghost `executed`)
and install promises on the outputs.  The activation record handed to the
enablement manager is outside the claims and not modelled. -/
def activateMethod (s : PMState) (mid : Id) : Option PMState :=
  match alookup s.methodsD mid with
  | none => none
  | some mm => pendAll mm.sync { s with executed := s.executed ++ [mid] } mm.outputs

/-- Activate the scheduled methods in order. -/
def activateAll (s : PMState) : List Id → Option PMState
  | [] => some s
  | mid :: rest =>
      match activateMethod s mid with
      | none => none
      | some s1 => activateAll s1 rest

/-- `evaluate()`: seed with the selected methods of the constraints needing
evaluation, commit promises downstream, run the downstream non-stay methods
in topological order, commit again, and clear `needEvaluating` — the clear
(like the whole method-running block) only happens when some seed method was
found.  With no solution graph the source dereferences `this.sgraph` and
throws. -/
def evaluate (s : PMState) : Option PMState :=
  match s.sgraph with
  | none => none
  | some sg =>
      let mids := s.needEvaluating.filterMap
        (fun cid => sg.selectedForConstraint cid)
      let downstreamVids := nodesDownstreamOtherType sg.meths mids
      match commitAll s downstreamVids with
      | none => none
      | some s1 =>
          if mids.length > 0 then
            let downstreamMids :=
              (nodesDownstreamSameType sg.meths mids).filter
                (fun mid => ¬ mid.isStayMeth)
            let scheduledMids := s1.topomids.filter
              (fun mid => mid ∈ downstreamMids)
            match activateAll s1 scheduledMids with
            | none => none
            | some s2 =>
                match commitAll s2 downstreamVids with
                | none => none
                | some s3 => some { s3 with needEvaluating := [] }
          else some s1

/-! ### Planning (`plan`) -/

/-- The reverse scan over `topomids` that rebuilds the stay-priority list:
keep stay constraints and truthy-optional constraints.  An unknown method id
or a non-stay constraint missing from the registry makes the source throw. -/
def prioScan (s : PMState) : List Id → List Id → Option (List Id)
  | [], acc => some acc
  | mid :: rest, acc =>
      match s.cgraph.constraintForMethod mid with
      | none => none
      | some cid =>
          if cid.isStayCon then prioScan s rest (acc ++ [cid])
          else
            match alookup s.constraintsD cid with
            | none => none
            | some cc =>
                if cc.optional.truthy then prioScan s rest (acc ++ [cid])
                else prioScan s rest acc

/-- `reevaluateIfEmergingSource(vid)`. -/
def reevaluateIfEmergingSource (sg : SGraph) (s : PMState) (vid : String) :
    Option PMState :=
  match alookup s.varsD vid with
  | none => none
  | some vv =>
      if (sg.selectedForConstraint (stayConstraint vid)).isSome ∧
          vv.source = false ∧ stayConstraint vid ∉ s.needEvaluating then
        match pendOutput true s vid with
        | none => none
        | some s1 =>
            some { s1 with
              needEvaluating := setAdd s1.needEvaluating (stayConstraint vid) }
      else some s

/-- Fold `reevaluateIfEmergingSource` over the solution graph's variables. -/
def emergeAll (sg : SGraph) (s : PMState) : List String → Option PMState
  | [] => some s
  | vid :: rest =>
      match reevaluateIfEmergingSource sg s vid with
      | none => none
      | some s1 => emergeAll sg s1 rest

/-- `updateSourceStatus(vid)`: set the `source` flag from the solution
graph. -/
def updateSourceStatus (sg : SGraph) (s : PMState) (vid : String) :
    Option PMState :=
  match alookup s.varsD vid with
  | none => none
  | some vv =>
      some (setVar s vid
        { vv with source := (sg.selectedForConstraint (stayConstraint vid)).isSome })

/-- Fold `updateSourceStatus` over the solution graph's variables. -/
def sourcesAll (sg : SGraph) (s : PMState) : List String → Option PMState
  | [] => some s
  | vid :: rest =>
      match updateSourceStatus sg s vid with
      | none => none
      | some s1 => sourcesAll sg s1 rest

/-- `plan()`: run the planner over `needEnforcing`; on success install the
new solution graph, re-sort, rebuild the stay priorities, queue the planned
constraints for evaluation, handle emerging sources, and refresh the source
flags.  `needEnforcing` is cleared on success and on failure alike; on
failure the previous solution graph is left in place. -/
def planPM (ops : PlannerOps) (s : PMState) : Option PMState :=
  let cids := s.needEnforcing
  if cids.isEmpty then some s
  else
    match ops.planFn s.plannerOrder s.sgraph cids with
    | none => some { s with needEnforcing := [] }
    | some sg =>
        let s1 := { s with sgraph := some sg }
        let s2 := { s1 with topomids := ops.toposortFn s1.cgraph sg s1.plannerOrder }
        match prioScan s2 s2.topomids.reverse [] with
        | none => none
        | some priorities =>
            let s3 := { s2 with plannerOrder := priorities }
            let s4 := { s3 with
              needEvaluating := cids.foldl setAdd s3.needEvaluating }
            match (if s4.forwardEmergingSources then emergeAll sg s4 sg.vars
                   else some s4) with
            | none => none
            | some s5 =>
                match sourcesAll sg s5 sg.vars with
                | none => none
                | some s6 => some { s6 with needEnforcing := [] }

/-! ### Model updating (`updateModel`)

The source iterates `needUpdating` with `for (var i = 0, l = ...)` loops;
`var` is function-scoped in JavaScript, so the two inner loops (over
`updates.removes` and `updates.adds`) reuse the same `i` and `l`.  After the
inner loops finish, `i = updates.adds.length = l`, the outer `++i` makes
`i = l + 1`, and the outer condition `i < l` fails — so at most the first
queued context is ever processed, and `needUpdating` is never cleared.  The
embedding reproduces exactly this control flow. -/

/-- Apply one removed element: constraints, outputs, touch dependencies. -/
def applyRemove (s : PMState) : CtxElem → Option PMState
  | .con cc => removeConstraint s cc
  | .out vv => some (removeOutput s vv)
  | .touch e1 e2 => some (removeTouchDependency s e1 e2)

/-- Apply one added element. -/
def applyAdd (s : PMState) : CtxElem → Option PMState
  | .con cc => some (addConstraint s cc)
  | .out vv => some (addOutput s vv)
  | .touch e1 e2 => some (addTouchDependency s e1 e2)

/-- Apply a list of removals in order. -/
def applyRemoves (s : PMState) : List CtxElem → Option PMState
  | [] => some s
  | el :: rest =>
      match applyRemove s el with
      | none => none
      | some s1 => applyRemoves s1 rest

/-- Apply a list of additions in order. -/
def applyAdds (s : PMState) : List CtxElem → Option PMState
  | [] => some s
  | el :: rest =>
      match applyAdd s el with
      | none => none
      | some s1 => applyAdds s1 rest

/-- The `for` loop of `updateModel` with the function-scoped `i` and `l`:
process `needUpdating[i]`; afterwards the loop counter equals
`adds.length + 1` and the bound equals `adds.length`, so the loop condition
`i < l` of the next check always fails.  The structural `fuel` argument only
bounds the number of condition checks; since each body is followed by a
failing check, any `fuel ≥ 2` (and `fuel ≥ 1` for an empty queue) is
sufficient, so `updateModel` below always supplies enough. -/
def updateModelLoop (s : PMState) : Nat → Nat → Nat → Option PMState
  | 0, _, _ => none
  | fuel + 1, i, l =>
      if i < l then
        match s.needUpdating.get? i with
        | none => some s
        | some ctx =>
            let s0 := { s with reportLog := s.reportLog ++ [ctx.tag] }
            match applyRemoves s0 ctx.removes with
            | none => none
            | some s1 =>
                match applyAdds s1 ctx.adds with
                | none => none
                | some s2 =>
                    updateModelLoop s2 fuel (ctx.adds.length + 1) ctx.adds.length
      else some s

/-- `updateModel()`. -/
def updateModel (s : PMState) : Option PMState :=
  updateModelLoop s (s.needUpdating.length + 1) 0 s.needUpdating.length

/-! ### The update cycle -/

/-- `update()`: when an update is needed, clear the flag, drain the model
changes, plan, evaluate, and re-raise `solved` when nothing is pending. -/
def update (ops : PlannerOps) (s : PMState) : Option PMState :=
  if s.isUpdateNeeded then
    match updateModel { s with isUpdateNeeded := false } with
    | none => none
    | some s1 =>
        match planPM ops s1 with
        | none => none
        | some s2 =>
            match evaluate s2 with
            | none => none
            | some s3 =>
                some (if s3.pendingCount = 0 then solvedSet s3 true else s3)
  else some s

/-- `performScheduledUpdate()`. -/
def performScheduledUpdate (ops : PlannerOps) (s : PMState) :
    Option PMState :=
  update ops { s with isUpdateScheduled := false }

/-- `switchToNewPlanner(plannerT)`: the strength order is carried over via
`getOptionals`/`setOptionals`, and every constraint of the constraint graph
is re-marked as needing enforcement. -/
def switchToNewPlanner (s : PMState) : PMState :=
  s.cgraph.constraints.foldl recordConstraintChange s

/-! ### Reachability

One step of the property model: any public mutator, any variable event, or a
(scheduled or forced) update, with arbitrary arguments and an arbitrary
planner.  `addComponents` / `removeComponents` and the touch-set helpers are
drivers that issue sequences of these steps. -/

/-- The one-step transition relation of the property model. -/
inductive Step : PMState → PMState → Prop where
  | addVar (s : PMState) (vv : Variable) : Step s (addVariable s vv)
  | rmVar (s : PMState) (vv : Variable) : Step s (removeVariable s vv)
  | addCon (s : PMState) (cc : Constraint) : Step s (addConstraint s cc)
  | rmCon (s : PMState) (cc : Constraint) (s' : PMState) :
      removeConstraint s cc = some s' → Step s s'
  | addOut (s : PMState) (vv : Variable) : Step s (addOutput s vv)
  | rmOut (s : PMState) (vv : Variable) : Step s (removeOutput s vv)
  | addTD (s : PMState) (e1 e2 : TDEnd) : Step s (addTouchDependency s e1 e2)
  | rmTD (s : PMState) (e1 e2 : TDEnd) : Step s (removeTouchDependency s e1 e2)
  | ctxChange (s : PMState) (ctx : Ctx) : Step s (recordContextChange s ctx)
  | rmCtxRec (s : PMState) (ctx : Ctx) : Step s (removeContextRecords s ctx)
  | varEvent (fuel : Nat) (s : PMState) (ty : VariableEventType)
      (vv : Variable) (s' : PMState) :
      onNextVariableChange fuel s ty vv = some s' → Step s s'
  | upd (ops : PlannerOps) (s s' : PMState) :
      update ops s = some s' → Step s s'
  | schedUpd (ops : PlannerOps) (s s' : PMState) :
      performScheduledUpdate ops s = some s' → Step s s'
  | switchPlanner (s : PMState) : Step s (switchToNewPlanner s)

/-- A state is reachable when the constructor state leads to it by steps. -/
def Reachable (s : PMState) : Prop :=
  Relation.ReflTransGen Step initState s

/-! ## Claim C10: `addOutput` / `removeOutput` touch only the output
refcounts -/

/-- Everything except `outputVids` agrees between the two states. -/
def OutputsOnly (s s' : PMState) : Prop :=
  s'.varsD = s.varsD ∧ s'.methodsD = s.methodsD ∧
  s'.constraintsD = s.constraintsD ∧ s'.cgraph = s.cgraph ∧
  s'.sgraph = s.sgraph ∧ s'.topomids = s.topomids ∧
  s'.plannerOrder = s.plannerOrder ∧
  s'.scheduleUpdateOnChange = s.scheduleUpdateOnChange ∧
  s'.isUpdateScheduled = s.isUpdateScheduled ∧ s'.solved = s.solved ∧
  s'.pendingCount = s.pendingCount ∧ s'.needUpdating = s.needUpdating ∧
  s'.needEnforcing = s.needEnforcing ∧ s'.needEvaluating = s.needEvaluating ∧
  s'.isUpdateNeeded = s.isUpdateNeeded ∧ s'.touchDeps = s.touchDeps ∧
  s'.hasOptionals = s.hasOptionals ∧
  s'.forwardEmergingSources = s.forwardEmergingSources ∧
  s'.solvedLog = s.solvedLog ∧ s'.reportLog = s.reportLog ∧
  s'.executed = s.executed

/-- C10: for every model state and variable, `addOutput` and `removeOutput`
modify only the output-variable reference counts: the solved signal (and its
call log), the update flags, the constraint graph, the solution graph, the
planner order and the pending sets are all left unchanged. -/
theorem addOutput_removeOutput_frame (s : PMState) (vv : Variable) :
    OutputsOnly s (addOutput s vv) ∧ OutputsOnly s (removeOutput s vv) := by
  constructor
  · unfold addOutput
    cases alookup s.outputVids vv.id <;> simp [OutputsOnly]
  · unfold removeOutput
    by_cases h : (alookup s.outputVids vv.id).getD 0 > 1 <;>
      simp [h, OutputsOnly]

/-! ## Claim C6: removing a still-used variable is a silent no-op -/

/-- C6: when the variable is registered but some constraint in the constraint
graph still uses it, `removeVariable` returns with the state — registry,
constraint graph, strength order, output registry — exactly as it was, and the
operation is total (no error path exists). -/
theorem removeVariable_used_noop (s : PMState) (vv : Variable)
    (hreg : (alookup s.varsD vv.id).isSome)
    (huse : s.cgraph.constraintsWhichUse vv.id ≠ []) :
    removeVariable s vv = s := by
  unfold removeVariable
  rw [if_neg]
  intro h
  exact huse h.2

/-- A registered variable used by (at least) its own stay constraint:
the hypotheses of `removeVariable_used_noop` hold after `addVariable`
on a fresh model, and removal is then a no-op. -/
theorem removeVariable_used_noop_witness :
    (alookup (addVariable initState ⟨"x", .Default, false, false, false⟩).varsD
        "x").isSome = true ∧
    (addVariable initState
        ⟨"x", .Default, false, false, false⟩).cgraph.constraintsWhichUse "x"
      ≠ [] ∧
    removeVariable (addVariable initState ⟨"x", .Default, false, false, false⟩)
        ⟨"x", .Default, false, false, false⟩ =
      addVariable initState ⟨"x", .Default, false, false, false⟩ :=
  ⟨by decide, by decide,
    removeVariable_used_noop _ _ (by decide) (by decide)⟩

/-! ## Claim C7: `removeConstraint` before any solution graph exists -/

/-- A constraint with one method, used to exercise `removeConstraint`. -/
def c7con : Constraint := ⟨"c", [⟨"m", ["a"], ["b"], true⟩], Optional.Default⟩

/-- C7 (refuting the claim as stated): on a fresh model — where
`getSGraph()` is null — adding a constraint and then removing it crashes:
`removeConstraint` reaches `this.sgraph.selectMethod(cc.id, null)` with
`this.sgraph === null` and throws a `TypeError`.  The policy of the spec
("there are no unrecoverable engine states", structural errors recovered
locally) and the null guard used elsewhere (`doPromotions`) mark this as a
slip in the code. -/
theorem removeConstraint_nullSGraph_faults :
    (addConstraint initState c7con).sgraph = none ∧
    removeConstraint (addConstraint initState c7con) c7con = none := by decide

/-! ## Claim C4: `updateModel` and the `needUpdating` queue -/

/-- A planner whose `plan` always fails and an empty toposort; used where the
planner is never consulted or must fail. -/
def failOps : PlannerOps := ⟨fun _ _ _ => none, fun _ _ _ => []⟩

/-- First queued context: empty change report. -/
def ctxA4 : Ctx := ⟨1, [], []⟩

/-- Second queued context: adds one constraint. -/
def ctxB4 : Ctx :=
  ⟨2, [CtxElem.con ⟨"B", [⟨"mB", ["a"], ["b"], true⟩], Optional.Default⟩], []⟩

/-- A state with two contexts queued for updating and an (empty) solution
graph already in place. -/
def exC4state : PMState :=
  { initState with
      needUpdating := [ctxA4, ctxB4],
      sgraph := some ⟨[], [], []⟩,
      isUpdateNeeded := true }

/-- The state after running `update` on `exC4state`. -/
def exC4res : PMState := (update failOps exC4state).getD initState

/-- C4 (refuting the claim as stated): with two contexts queued, `update()`
completes but consults `reportUpdates` only for the first context (the inner
loops of `updateModel` reuse the function-scoped `i`/`l`, so the outer loop
exits after one iteration), the second context's constraint add is never
applied, and `needUpdating` still holds both contexts afterwards — the queue
is not drained. -/
theorem updateModel_processes_first_context_only :
    (update failOps exC4state).isSome = true ∧
    exC4res.reportLog = [1] ∧
    exC4res.needUpdating = [ctxA4, ctxB4] ∧
    alookup exC4res.constraintsD (Id.user "B") = none := by decide

/-! ## Claim C9: outputs are refcounted -/

/-- The effect of `addOutput` on the `outputVids` dictionary alone. -/
def addOutL (id : String) (l : List (String × Nat)) : List (String × Nat) :=
  match alookup l id with
  | some n => setValue l id (n + 1)
  | none => l ++ [(id, 1)]

/-- The effect of `removeOutput` on the `outputVids` dictionary alone. -/
def removeOutL (id : String) (l : List (String × Nat)) : List (String × Nat) :=
  if (alookup l id).getD 0 > 1 then setValue l id ((alookup l id).getD 0 - 1)
  else eraseKey l id

theorem addOutput_outputVids (s : PMState) (vv : Variable) :
    (addOutput s vv).outputVids = addOutL vv.id s.outputVids := by
  unfold addOutput addOutL
  cases alookup s.outputVids vv.id <;> rfl

theorem removeOutput_outputVids (s : PMState) (vv : Variable) :
    (removeOutput s vv).outputVids = removeOutL vv.id s.outputVids := by
  unfold removeOutput removeOutL
  by_cases h : (alookup s.outputVids vv.id).getD 0 > 1 <;> simp [h]

theorem addOutput_iter_outputVids (s : PMState) (vv : Variable) (n : Nat) :
    ((fun t => addOutput t vv)^[n] s).outputVids =
      (addOutL vv.id)^[n] s.outputVids := by
  induction n with
  | zero => rfl
  | succ n ih =>
      rw [Function.iterate_succ_apply', Function.iterate_succ_apply',
        addOutput_outputVids, ih]

theorem removeOutput_iter_outputVids (s : PMState) (vv : Variable) (n : Nat) :
    ((fun t => removeOutput t vv)^[n] s).outputVids =
      (removeOutL vv.id)^[n] s.outputVids := by
  induction n with
  | zero => rfl
  | succ n ih =>
      rw [Function.iterate_succ_apply', Function.iterate_succ_apply',
        removeOutput_outputVids, ih]

theorem addOutL_iter_some (id : String) (l : List (String × Nat)) (c n : Nat)
    (h : alookup l id = some c) :
    (addOutL id)^[n + 1] l = setValue l id (c + (n + 1)) := by
  induction n with
  | zero => simp [addOutL, h]
  | succ n ih =>
      rw [Function.iterate_succ_apply', ih]
      have hl : alookup (setValue l id (c + (n + 1))) id = some (c + (n + 1)) :=
        alookup_setValue_self l id _ (by simp [h])
      simp only [addOutL, hl, setValue_setValue]
      congr 1

theorem addOutL_iter_none (id : String) (l : List (String × Nat)) (n : Nat)
    (h : alookup l id = none) :
    (addOutL id)^[n + 1] l = l ++ [(id, n + 1)] := by
  induction n with
  | zero => simp [addOutL, h]
  | succ n ih =>
      rw [Function.iterate_succ_apply', ih]
      have hl : alookup (l ++ [(id, n + 1)]) id = some (n + 1) :=
        alookup_append_self_of_none l id _ h
      simp [addOutL, hl, setValue_append_of_none l id _ _ h]

theorem removeOutL_iter_some (id : String) (l : List (String × Nat))
    (c n j : Nat) (hc : 1 ≤ c) (h : alookup l id = some c) (hj : j ≤ n) :
    (removeOutL id)^[j] (setValue l id (c + n)) = setValue l id (c + n - j) := by
  induction j with
  | zero => simp
  | succ j ih =>
      rw [Function.iterate_succ_apply', ih (by omega)]
      have hl : alookup (setValue l id (c + n - j)) id = some (c + n - j) :=
        alookup_setValue_self l id _ (by simp [h])
      have hgt : (some (c + n - j)).getD 0 > 1 := by simp; omega
      rw [removeOutL, hl]
      rw [if_pos hgt, setValue_setValue]
      congr 1

theorem removeOutL_iter_none (id : String) (l : List (String × Nat))
    (n j : Nat) (h : alookup l id = none) (hj : j < n) :
    (removeOutL id)^[j] (l ++ [(id, n)]) = l ++ [(id, n - j)] := by
  induction j with
  | zero => simp
  | succ j ih =>
      rw [Function.iterate_succ_apply', ih (by omega)]
      have hl : alookup (l ++ [(id, n - j)]) id = some (n - j) :=
        alookup_append_self_of_none l id _ h
      have hgt : (some (n - j)).getD 0 > 1 := by simp; omega
      rw [removeOutL, hl]
      rw [if_pos hgt, setValue_append_of_none l id _ _ h]
      have harith : (some (n - j)).getD 0 - 1 = n - (j + 1) := by
        simp only [Option.getD_some]; omega
      rw [harith]

/-- C9: outputs are refcounted.  For every state whose output registry holds
positive counts (every registry the model builds does), every variable and
every `n ≥ 1`: after `n` calls to `addOutput(v)` the variable stays
registered as an output through the first `n - 1` calls to `removeOutput(v)`,
and the full `n`-fold add/remove round trip restores the output registry
exactly. -/
theorem outputs_refcounted (s : PMState) (vv : Variable) (n : Nat)
    (hn : 1 ≤ n)
    (hpos : ∀ c, alookup s.outputVids vv.id = some c → 1 ≤ c) :
    (∀ j, j < n →
      (alookup ((fun t => removeOutput t vv)^[j]
          ((fun t => addOutput t vv)^[n] s)).outputVids vv.id).isSome = true) ∧
    ((fun t => removeOutput t vv)^[n]
        ((fun t => addOutput t vv)^[n] s)).outputVids = s.outputVids := by
  obtain ⟨m, rfl⟩ : ∃ m, n = m + 1 := ⟨n - 1, by omega⟩
  cases h : alookup s.outputVids vv.id with
  | some c =>
      have hc : 1 ≤ c := hpos c h
      have hadd : ((fun t => addOutput t vv)^[m + 1] s).outputVids =
          setValue s.outputVids vv.id (c + (m + 1)) := by
        rw [addOutput_iter_outputVids, addOutL_iter_some _ _ _ _ h]
      constructor
      · intro j hj
        rw [removeOutput_iter_outputVids, hadd,
          removeOutL_iter_some _ _ _ _ _ hc h (by omega)]
        simp [alookup_setValue_self s.outputVids vv.id _ (by simp [h])]
      · rw [removeOutput_iter_outputVids, hadd,
          removeOutL_iter_some _ _ _ _ _ hc h (le_refl _)]
        have : c + (m + 1) - (m + 1) = c := by omega
        rw [this, setValue_lookup_self _ _ _ h]
  | none =>
      have hadd : ((fun t => addOutput t vv)^[m + 1] s).outputVids =
          s.outputVids ++ [(vv.id, m + 1)] := by
        rw [addOutput_iter_outputVids, addOutL_iter_none _ _ _ h]
      constructor
      · intro j hj
        rw [removeOutput_iter_outputVids, hadd,
          removeOutL_iter_none _ _ _ _ h (by omega)]
        simp [alookup_append_self_of_none s.outputVids vv.id _ h]
      · rw [removeOutput_iter_outputVids, hadd]
        have hsplit : (removeOutL vv.id)^[m + 1] (s.outputVids ++ [(vv.id, m + 1)])
            = removeOutL vv.id ((removeOutL vv.id)^[m] (s.outputVids ++ [(vv.id, m + 1)])) :=
          Function.iterate_succ_apply' _ _ _
        rw [hsplit]
        by_cases hm : m = 0
        · subst hm
          have hl : alookup (s.outputVids ++ [(vv.id, 1)]) vv.id = some 1 :=
            alookup_append_self_of_none _ _ _ h
          simp only [Function.iterate_zero, id]
          rw [removeOutL, hl]
          simp only [Option.getD_some]
          rw [if_neg (by omega), eraseKey_append_of_none _ _ _ h]
        · rw [removeOutL_iter_none _ _ _ _ h (by omega)]
          have hmm : m + 1 - m = 1 := by omega
          rw [hmm]
          have hl : alookup (s.outputVids ++ [(vv.id, 1)]) vv.id = some 1 :=
            alookup_append_self_of_none _ _ _ h
          rw [removeOutL, hl]
          simp only [Option.getD_some]
          rw [if_neg (by omega), eraseKey_append_of_none _ _ _ h]

/-- The refcount round trip at a concrete input: two adds of a fresh output
keep it registered through the first remove, and two removes restore the
empty registry. -/
theorem outputs_refcounted_witness :
    ((∀ j, j < 2 →
      (alookup ((fun t => removeOutput t ⟨"x", .Default, false, false, false⟩)^[j]
          ((fun t => addOutput t ⟨"x", .Default, false, false, false⟩)^[2]
            initState)).outputVids "x").isSome = true) ∧
    ((fun t => removeOutput t ⟨"x", .Default, false, false, false⟩)^[2]
        ((fun t => addOutput t ⟨"x", .Default, false, false, false⟩)^[2]
          initState)).outputVids = initState.outputVids) :=
  outputs_refcounted initState ⟨"x", .Default, false, false, false⟩ 2
    (by omega) (by intro c hc; simp [initState, alookup] at hc)

/-! ## Claims C1 and C5: touch promotion -/

/-- A constraint registered with a non-`Default` optional level — the
eligibility condition of the BFS expansion in `doPromotions`. -/
def NonDefaultIn (s : PMState) (c : Id) : Prop :=
  ∃ cc, alookup s.constraintsD c = some cc ∧ cc.optional ≠ Optional.Default

theorem depsScan_spec (s : PMState) :
    ∀ ds sub visited res, depsScan s ds sub visited = some res →
      sub.Nodup → (∀ c ∈ sub, c ∈ visited) →
      ∃ new, res.1 = sub ++ new ∧ res.1.Nodup ∧
        (∀ c ∈ res.1, c ∈ res.2) ∧ (∀ c ∈ visited, c ∈ res.2) ∧
        (∀ c ∈ new, NonDefaultIn s c ∧ c ∉ visited) := by
  intro ds
  induction ds with
  | nil =>
      intro sub visited res h hnd hsubv
      simp [depsScan] at h
      subst h
      exact ⟨[], by simp, hnd, hsubv, fun c hc => hc, by simp⟩
  | cons dep ds ih =>
      intro sub visited res h hnd hsubv
      by_cases hv : dep ∈ visited
      · simp only [depsScan, if_pos hv] at h
        exact ih sub visited res h hnd hsubv
      · simp only [depsScan, if_neg hv] at h
        cases hcc : alookup s.constraintsD dep with
        | none => rw [hcc] at h; exact absurd h (by simp)
        | some cc =>
            rw [hcc] at h
            dsimp only at h
            by_cases hopt : cc.optional ≠ Optional.Default
            · rw [if_pos hopt] at h
              have hnd' : (sub ++ [dep]).Nodup := by
                have hdep : dep ∉ sub := fun hin => hv (hsubv dep hin)
                simp [List.nodup_append, hnd, hdep]
              have hsubv' : ∀ c ∈ sub ++ [dep], c ∈ dep :: visited := by
                intro c hc
                rcases List.mem_append.1 hc with h1 | h1
                · exact List.mem_cons_of_mem _ (hsubv c h1)
                · simp at h1; subst h1; exact List.mem_cons_self _ _
              obtain ⟨new, hres, hnd2, hsub2, hvis2, hgood⟩ :=
                ih (sub ++ [dep]) (dep :: visited) res h hnd' hsubv'
              refine ⟨dep :: new, by simpa using hres, hnd2, hsub2,
                fun c hc => hvis2 c (List.mem_cons_of_mem _ hc), ?_⟩
              intro c hc
              rcases List.mem_cons.1 hc with h1 | h1
              · subst h1; exact ⟨⟨cc, hcc, hopt⟩, hv⟩
              · obtain ⟨hg, hnv⟩ := hgood c h1
                exact ⟨hg, fun hin => hnv (List.mem_cons_of_mem _ hin)⟩
            · rw [if_neg hopt] at h
              exact ih sub visited res h hnd hsubv

theorem genScan_spec (s : PMState) :
    ∀ gen sub visited res, genScan s gen sub visited = some res →
      sub.Nodup → (∀ c ∈ sub, c ∈ visited) →
      ∃ new, res.1 = sub ++ new ∧ res.1.Nodup ∧
        (∀ c ∈ res.1, c ∈ res.2) ∧ (∀ c ∈ visited, c ∈ res.2) ∧
        (∀ c ∈ new, NonDefaultIn s c ∧ c ∉ visited) := by
  intro gen
  induction gen with
  | nil =>
      intro sub visited res h hnd hsubv
      simp [genScan] at h
      subst h
      exact ⟨[], by simp, hnd, hsubv, fun c hc => hc, by simp⟩
  | cons vid rest ih =>
      intro sub visited res h hnd hsubv
      simp only [genScan] at h
      cases hd : depsScan s ((alookup s.touchDeps vid).getD []) sub visited with
      | none => rw [hd] at h; exact absurd h (by simp)
      | some mid =>
          rw [hd] at h
          obtain ⟨new1, hres1, hnd1, hsub1, hvis1, hgood1⟩ :=
            depsScan_spec s _ sub visited mid hd hnd hsubv
          obtain ⟨new2, hres2, hnd2, hsub2, hvis2, hgood2⟩ :=
            ih mid.1 mid.2 res h hnd1 hsub1
          refine ⟨new1 ++ new2, by rw [hres2, hres1, List.append_assoc],
            hnd2, hsub2, fun c hc => hvis2 c (hvis1 c hc), ?_⟩
          intro c hc
          rcases List.mem_append.1 hc with h1 | h1
          · obtain ⟨hg, hnv⟩ := hgood1 c h1
            exact ⟨hg, hnv⟩
          · obtain ⟨hg, hnv⟩ := hgood2 c h1
            exact ⟨hg, fun hin => hnv (hvis1 c hin)⟩

theorem bfsGens_spec (s : PMState) :
    ∀ fuel gen visited acc res, bfsGens s fuel gen visited acc = some res →
      acc.Nodup → (∀ c ∈ acc, c ∈ visited) → (∀ c ∈ gen, c ∈ visited) →
      ∃ ext, res = acc ++ ext ∧ res.Nodup ∧
        (∀ c ∈ ext, NonDefaultIn s c) := by
  intro fuel
  induction fuel with
  | zero =>
      intro gen visited acc res h hnd haccv hgenv
      cases gen with
      | nil =>
          simp [bfsGens] at h
          subst h
          exact ⟨[], by simp, hnd, by simp⟩
      | cons g gs => exact absurd h (by simp [bfsGens])
  | succ fuel ih =>
      intro gen visited acc res h hnd haccv hgenv
      cases gen with
      | nil =>
          simp [bfsGens] at h
          subst h
          exact ⟨[], by simp, hnd, by simp⟩
      | cons g gs =>
          simp only [bfsGens] at h
          cases hg : genScan s (g :: gs) [] visited with
          | none => rw [hg] at h; exact absurd h (by simp)
          | some sv =>
              rw [hg] at h
              obtain ⟨new, hres1, hnd1, hsub1, hvis1, hgood1⟩ :=
                genScan_spec s (g :: gs) [] visited sv hg (by simp) (by simp)
              simp only [List.nil_append] at hres1
              subst hres1
              have hperm := sortDesc_perm (rankOf s.plannerOrder) sv.1
              have hsortnd : (sortDesc (rankOf s.plannerOrder) sv.1).Nodup :=
                hperm.nodup_iff.2 hnd1
              have hsortmem : ∀ c,
                  c ∈ sortDesc (rankOf s.plannerOrder) sv.1 ↔ c ∈ sv.1 :=
                fun c => hperm.mem_iff
              have hnd' : (acc ++ sortDesc (rankOf s.plannerOrder) sv.1).Nodup := by
                rw [List.nodup_append]
                refine ⟨hnd, hsortnd, ?_⟩
                intro a ha hb
                have hav : a ∈ visited := haccv a ha
                have hanv : a ∉ visited :=
                  (hgood1 a ((hsortmem a).1 hb)).2
                exact hanv hav
              have haccv' : ∀ c ∈ acc ++ sortDesc (rankOf s.plannerOrder) sv.1,
                  c ∈ sv.2 := by
                intro c hc
                rcases List.mem_append.1 hc with h1 | h1
                · exact hvis1 c (haccv c h1)
                · exact hsub1 c ((hsortmem c).1 h1)
              have hgenv' : ∀ c ∈ sortDesc (rankOf s.plannerOrder) sv.1,
                  c ∈ sv.2 := fun c hc => hsub1 c ((hsortmem c).1 hc)
              obtain ⟨ext, hres, hndres, hgood⟩ :=
                ih _ sv.2 _ res h hnd' haccv' hgenv'
              refine ⟨sortDesc (rankOf s.plannerOrder) sv.1 ++ ext,
                by rw [hres, List.append_assoc], hndres, ?_⟩
              intro c hc
              rcases List.mem_append.1 hc with h1 | h1
              · exact (hgood1 c ((hsortmem c).1 h1)).1
              · exact hgood c h1

/-- The shape of a successful `doPromotions` collection: the originating id
first, then pairwise-distinct non-`Default` constraints. -/
theorem doPromotionsCollect_spec (s : PMState) (origin : Id) (fuel : Nat)
    (promote : List Id)
    (h : doPromotionsCollect fuel s origin = some promote) :
    ∃ ext, promote = origin :: ext ∧ promote.Nodup ∧
      (∀ c ∈ ext, NonDefaultIn s c) := by
  obtain ⟨ext, hres, hnd, hgood⟩ :=
    bfsGens_spec s fuel [origin] [origin] [origin] promote h
      (by simp) (by simp) (by simp)
  exact ⟨ext, by simpa using hres, hnd, hgood⟩

theorem recordChange_spec (s : PMState) :
    (recordChange s).plannerOrder = s.plannerOrder ∧
    (recordChange s).sgraph = s.sgraph ∧
    (recordChange s).needEvaluating = s.needEvaluating ∧
    (recordChange s).needEnforcing = s.needEnforcing ∧
    (recordChange s).solved = false := by
  unfold recordChange solvedSet scheduleUpdate
  by_cases h : s.scheduleUpdateOnChange <;>
    by_cases h2 : s.isUpdateScheduled <;> simp [h, h2]

theorem recordConstraintChange_spec (s : PMState) (cid : Id) :
    (recordConstraintChange s cid).plannerOrder = s.plannerOrder ∧
    (recordConstraintChange s cid).sgraph = s.sgraph ∧
    (recordConstraintChange s cid).needEvaluating = s.needEvaluating ∧
    (recordConstraintChange s cid).needEnforcing = setAdd s.needEnforcing cid := by
  unfold recordConstraintChange
  obtain ⟨h1, h2, h3, h4, _⟩ :=
    recordChange_spec { s with needEnforcing := setAdd s.needEnforcing cid }
  exact ⟨h1, h2, h3, h4⟩

theorem mem_setAdd_self [DecidableEq β] (l : List β) (x : β) :
    x ∈ setAdd l x := by
  unfold setAdd
  by_cases h : x ∈ l <;> simp [h]

theorem mem_setAdd_of_mem [DecidableEq β] (l : List β) (x y : β)
    (h : y ∈ l) : y ∈ setAdd l x := by
  unfold setAdd
  by_cases hx : x ∈ l <;> simp [hx, h]

theorem promoteStep_plannerOrder (s : PMState) (c : Id) :
    (promoteStep s c).plannerOrder = setMaxStrength s.plannerOrder c := by
  unfold promoteStep
  dsimp only
  split
  · rfl
  · exact (recordConstraintChange_spec _ c).1

theorem promoteStep_sgraph (s : PMState) (c : Id) :
    (promoteStep s c).sgraph = s.sgraph := by
  unfold promoteStep
  dsimp only
  split
  · rfl
  · exact (recordConstraintChange_spec _ c).2.1

theorem promoteStep_needEvaluating (s : PMState) (c : Id) :
    (promoteStep s c).needEvaluating = s.needEvaluating := by
  unfold promoteStep
  dsimp only
  split
  · rfl
  · exact (recordConstraintChange_spec _ c).2.2.1

theorem promoteStep_needEnforcing_mono (s : PMState) (c d : Id)
    (h : d ∈ s.needEnforcing) : d ∈ (promoteStep s c).needEnforcing := by
  unfold promoteStep
  dsimp only
  split
  · exact h
  · rw [(recordConstraintChange_spec _ c).2.2.2]
    exact mem_setAdd_of_mem _ _ _ h

theorem promoteStep_needEnforcing_marks (s : PMState) (c : Id)
    (h : selectedForConstraintO s.sgraph c = none) :
    c ∈ (promoteStep s c).needEnforcing := by
  unfold promoteStep
  dsimp only
  rw [if_neg (by simp [selectedForConstraintO] at h ⊢; simp [h])]
  rw [(recordConstraintChange_spec _ c).2.2.2]
  exact mem_setAdd_self _ _

theorem promoteFold_plannerOrder (l : List Id) :
    ∀ s : PMState, (l.foldl promoteStep s).plannerOrder =
      l.foldl setMaxStrength s.plannerOrder := by
  induction l with
  | nil => intro s; rfl
  | cons c rest ih =>
      intro s
      simp only [List.foldl_cons]
      rw [ih, promoteStep_plannerOrder]

theorem promoteFold_sgraph (l : List Id) :
    ∀ s : PMState, (l.foldl promoteStep s).sgraph = s.sgraph := by
  induction l with
  | nil => intro s; rfl
  | cons c rest ih =>
      intro s
      simp only [List.foldl_cons]
      rw [ih, promoteStep_sgraph]

theorem promoteFold_needEvaluating (l : List Id) :
    ∀ s : PMState, (l.foldl promoteStep s).needEvaluating = s.needEvaluating := by
  induction l with
  | nil => intro s; rfl
  | cons c rest ih =>
      intro s
      simp only [List.foldl_cons]
      rw [ih, promoteStep_needEvaluating]

theorem promoteFold_needEnforcing_mono (l : List Id) :
    ∀ (s : PMState) (d : Id), d ∈ s.needEnforcing →
      d ∈ (l.foldl promoteStep s).needEnforcing := by
  induction l with
  | nil => intro s d h; exact h
  | cons c rest ih =>
      intro s d h
      simp only [List.foldl_cons]
      exact ih _ d (promoteStep_needEnforcing_mono s c d h)

theorem promoteFold_marks (l : List Id) :
    ∀ (s : PMState) (c : Id), c ∈ l →
      selectedForConstraintO s.sgraph c = none →
      c ∈ (l.foldl promoteStep s).needEnforcing := by
  induction l with
  | nil => intro s c h; exact absurd h (by simp)
  | cons d rest ih =>
      intro s c h hsel
      simp only [List.foldl_cons]
      rcases List.mem_cons.1 h with h1 | h1
      · subst h1
        exact promoteFold_needEnforcing_mono rest _ c
          (promoteStep_needEnforcing_marks s c hsel)
      · exact ih _ c h1 (by rw [promoteStep_sgraph]; exact hsel)

theorem setMaxStrength_nodup (ord : List Id) (c : Id) (h : ord.Nodup) :
    (setMaxStrength ord c).Nodup := by
  unfold setMaxStrength
  rw [List.nodup_append]
  refine ⟨h.erase c, by simp, ?_⟩
  intro a ha hb
  simp at hb
  subst hb
  exact ((h.mem_erase_iff).1 ha).1 rfl

theorem mem_setMaxStrength_of_mem (ord : List Id) (c d : Id) (h : d ∈ ord) :
    d ∈ setMaxStrength ord c := by
  unfold setMaxStrength
  by_cases hdc : d = c
  · subst hdc; simp
  · exact List.mem_append_left _ ((List.mem_erase_of_ne hdc).2 h)

theorem foldl_setMaxStrength_nodup (l : List Id) :
    ∀ ord : List Id, ord.Nodup → (l.foldl setMaxStrength ord).Nodup := by
  induction l with
  | nil => intro ord h; exact h
  | cons c rest ih =>
      intro ord h
      simp only [List.foldl_cons]
      exact ih _ (setMaxStrength_nodup ord c h)

theorem foldl_setMaxStrength_mem (l : List Id) :
    ∀ (ord : List Id) (c : Id), c ∈ l ∨ c ∈ ord →
      c ∈ l.foldl setMaxStrength ord := by
  induction l with
  | nil =>
      intro ord c h
      rcases h with h | h
      · exact absurd h (by simp)
      · exact h
  | cons d rest ih =>
      intro ord c h
      simp only [List.foldl_cons]
      rcases h with h | h
      · rcases List.mem_cons.1 h with h1 | h1
        · subst h1
          exact ih _ c (Or.inr (by simp [setMaxStrength]))
        · exact ih _ c (Or.inl h1)
      · exact ih _ c (Or.inr (mem_setMaxStrength_of_mem ord d c h))

/-- C1: a successful `doPromotions` run from the originating stay constraint
visits each constraint at most once (`promote` is duplicate-free), expands
only into constraints with non-`Default` optional level, then promotes the
collected ids in reverse order, so that the originating constraint ends
strongest among every constraint visited (it is the unique strongest entry of
the resulting strength order); every visited constraint with no currently
selected method is marked as needing enforcement, and already-pending
enforcement records survive.  `variableTouched` and `variableChanged` invoke
exactly this promotion with the variable's stay constraint as origin. -/
theorem doPromotions_spec (s : PMState) (origin : Id) (fuel : Nat)
    (promote : List Id) (hord : s.plannerOrder.Nodup)
    (h : doPromotionsCollect fuel s origin = some promote) :
    ∃ ext s', promote = origin :: ext ∧ promote.Nodup ∧
      (∀ c ∈ ext, NonDefaultIn s c) ∧
      doPromotions fuel s origin = some s' ∧
      (∃ pre, s'.plannerOrder = pre ++ [origin] ∧ origin ∉ pre ∧
        ∀ c ∈ promote, c ≠ origin → c ∈ pre) ∧
      (∀ c ∈ promote, selectedForConstraintO s.sgraph c = none →
        c ∈ s'.needEnforcing) ∧
      (∀ d ∈ s.needEnforcing, d ∈ s'.needEnforcing) ∧
      s'.needEvaluating = s.needEvaluating ∧ s'.sgraph = s.sgraph := by
  obtain ⟨ext, hsh, hnd, hgood⟩ := doPromotionsCollect_spec s origin fuel promote h
  refine ⟨ext, promote.reverse.foldl promoteStep s, hsh, hnd, hgood, ?_,
    ?_, ?_, ?_, ?_, ?_⟩
  · unfold doPromotions
    rw [h]
    rfl
  · -- the strength order ends with the origin, preceded by everything else
    rw [promoteFold_plannerOrder]
    subst hsh
    simp only [List.reverse_cons]
    rw [List.foldl_append]
    simp only [List.foldl_cons, List.foldl_nil]
    set X := ext.reverse.foldl setMaxStrength s.plannerOrder with hX
    have hXnd : X.Nodup := foldl_setMaxStrength_nodup _ _ hord
    refine ⟨X.erase origin, rfl, ?_, ?_⟩
    · intro hmem
      exact ((hXnd.mem_erase_iff).1 hmem).1 rfl
    · intro c hc hne
      rcases List.mem_cons.1 hc with h1 | h1
      · exact absurd h1 hne
      · have hcx : c ∈ X :=
          foldl_setMaxStrength_mem _ _ c (Or.inl (by simpa using h1))
        exact (List.mem_erase_of_ne hne).2 hcx
  · intro c hc hsel
    exact promoteFold_marks _ s c (by simpa using hc) hsel
  · intro d hd
    exact promoteFold_needEnforcing_mono _ s d hd
  · exact promoteFold_needEvaluating _ s
  · exact promoteFold_sgraph _ s

/-- A small model for exercising the promotion claims: two Max-optional
constraints reachable by touch dependencies from the stay of `v`. -/
def c1state : PMState :=
  { initState with
      constraintsD :=
        [(Id.user "A", ⟨"A", [], Optional.Max⟩),
         (Id.user "B", ⟨"B", [], Optional.Max⟩)],
      touchDeps := [(Id.stayCon "v", [Id.user "A", Id.user "B"])],
      plannerOrder := [Id.user "A", Id.user "B"] }

/-- A successful promotion run on `c1state`: the BFS collects the origin and
then the one generation `[B, A]` sorted strength-descending, and the promoted
order ends with the origin strongest. -/
theorem doPromotions_spec_witness :
    ∃ ext s',
      [stayConstraint "v", Id.user "B", Id.user "A"] =
        stayConstraint "v" :: ext ∧
      ([stayConstraint "v", Id.user "B", Id.user "A"] : List Id).Nodup ∧
      (∀ c ∈ ext, NonDefaultIn c1state c) ∧
      doPromotions 3 c1state (stayConstraint "v") = some s' ∧
      (∃ pre, s'.plannerOrder = pre ++ [stayConstraint "v"] ∧
        stayConstraint "v" ∉ pre ∧
        ∀ c ∈ [stayConstraint "v", Id.user "B", Id.user "A"],
          c ≠ stayConstraint "v" → c ∈ pre) ∧
      (∀ c ∈ [stayConstraint "v", Id.user "B", Id.user "A"],
        selectedForConstraintO c1state.sgraph c = none →
          c ∈ s'.needEnforcing) ∧
      (∀ d ∈ c1state.needEnforcing, d ∈ s'.needEnforcing) ∧
      s'.needEvaluating = c1state.needEvaluating ∧
      s'.sgraph = c1state.sgraph :=
  doPromotions_spec c1state (stayConstraint "v") 3
    [stayConstraint "v", Id.user "B", Id.user "A"] (by decide) (by decide)

theorem recordVariableChange_spec (s : PMState) (stayid : Id) :
    (recordVariableChange s stayid).needEvaluating =
      setAdd s.needEvaluating stayid ∧
    (recordVariableChange s stayid).needEnforcing = s.needEnforcing := by
  unfold recordVariableChange
  obtain ⟨_, _, h3, h4, _⟩ :=
    recordChange_spec { s with needEvaluating := setAdd s.needEvaluating stayid }
  exact ⟨h3, h4⟩

/-- C5: a touched variable performs the stay promotion and transitive
touch-dependency promotion but adds nothing to `needEvaluating`; a changed
variable performs exactly the same promotions (`variableChanged` is
`variableTouched` followed by `recordVariableChange`) and additionally marks
the variable's stay constraint as needing evaluation. -/
theorem variableTouched_vs_variableChanged (fuel : Nat) (s : PMState)
    (vv : Variable) :
    variableTouched fuel s vv = doPromotions fuel s (stayConstraint vv.id) ∧
    variableChanged fuel s vv = (variableTouched fuel s vv).map
      (fun t => recordVariableChange t (stayConstraint vv.id)) ∧
    (∀ s', variableTouched fuel s vv = some s' →
      s'.needEvaluating = s.needEvaluating) ∧
    (∀ s', variableChanged fuel s vv = some s' →
      s'.needEvaluating = setAdd s.needEvaluating (stayConstraint vv.id) ∧
      stayConstraint vv.id ∈ s'.needEvaluating) := by
  refine ⟨rfl, rfl, ?_, ?_⟩
  · intro s' h
    unfold variableTouched doPromotions at h
    rcases Option.map_eq_some'.1 h with ⟨promote, hcol, hfold⟩
    rw [← hfold]
    exact promoteFold_needEvaluating _ s
  · intro s' h
    unfold variableChanged at h
    rcases Option.map_eq_some'.1 h with ⟨t, hdp, hrec⟩
    unfold doPromotions at hdp
    rcases Option.map_eq_some'.1 hdp with ⟨promote, hcol, hfold⟩
    have hne : t.needEvaluating = s.needEvaluating := by
      rw [← hfold]
      exact promoteFold_needEvaluating _ s
    rw [← hrec]
    constructor
    · rw [(recordVariableChange_spec _ _).1, hne]
    · rw [(recordVariableChange_spec _ _).1]
      exact mem_setAdd_self _ _

/-- C5 at a concrete input: touching a fresh variable leaves `needEvaluating`
empty, changing it queues exactly its stay constraint. -/
theorem variableTouched_vs_variableChanged_witness :
    ((variableTouched 2 initState
        ⟨"x", .Default, false, false, false⟩).getD initState).needEvaluating =
      initState.needEvaluating ∧
    stayConstraint "x" ∈
      ((variableChanged 2 initState
        ⟨"x", .Default, false, false, false⟩).getD initState).needEvaluating :=
  ⟨(variableTouched_vs_variableChanged 2 initState
      ⟨"x", .Default, false, false, false⟩).2.2.1 _ (by decide),
    ((variableTouched_vs_variableChanged 2 initState
      ⟨"x", .Default, false, false, false⟩).2.2.2 _ (by decide)).2⟩

/-! ## Claim C3: planner failure -/

/-- The fields `evaluate` never writes, as far as the planner-failure claim is
concerned: the solution graph and the enforcement queue. -/
def EvFrame (t t' : PMState) : Prop :=
  t'.sgraph = t.sgraph ∧ t'.needEnforcing = t.needEnforcing

theorem evframe_refl (t : PMState) : EvFrame t t := ⟨rfl, rfl⟩

theorem evframe_trans {a b c : PMState} (h1 : EvFrame a b) (h2 : EvFrame b c) :
    EvFrame a c := ⟨h2.1.trans h1.1, h2.2.trans h1.2⟩

theorem solvedSet_evframe (s : PMState) (b : Bool) : EvFrame s (solvedSet s b) :=
  ⟨rfl, rfl⟩

theorem settledEvent_evframe (s : PMState) : EvFrame s (settledEvent s) := by
  unfold settledEvent
  dsimp only
  split
  · split
    · exact solvedSet_evframe _ _
    · exact ⟨rfl, rfl⟩
  · exact evframe_refl s

theorem setVar_evframe (s : PMState) (vid : String) (vv : Variable) :
    EvFrame s (setVar s vid vv) := ⟨rfl, rfl⟩

theorem commitPromiseVar_evframe (s : PMState) (vid : String) (s' : PMState)
    (h : commitPromiseVar s vid = some s') : EvFrame s s' := by
  unfold commitPromiseVar at h
  cases hv : alookup s.varsD vid with
  | none => rw [hv] at h; exact absurd h (by simp)
  | some vv =>
      rw [hv] at h
      dsimp only at h
      split at h
      · cases h
        exact evframe_trans (setVar_evframe _ _ _) (settledEvent_evframe _)
      · cases h
        exact evframe_refl s

theorem commitAll_evframe (l : List String) :
    ∀ s s', commitAll s l = some s' → EvFrame s s' := by
  induction l with
  | nil =>
      intro s s' h
      simp [commitAll] at h
      subst h
      exact evframe_refl s
  | cons vid rest ih =>
      intro s s' h
      simp only [commitAll] at h
      cases hc : commitPromiseVar s vid with
      | none => rw [hc] at h; exact absurd h (by simp)
      | some s1 =>
          rw [hc] at h
          exact evframe_trans (commitPromiseVar_evframe s vid s1 hc) (ih s1 s' h)

theorem pendOutput_evframe (sync : Bool) (s : PMState) (vid : String)
    (s' : PMState) (h : pendOutput sync s vid = some s') : EvFrame s s' := by
  unfold pendOutput at h
  cases hv : alookup s.varsD vid with
  | none => rw [hv] at h; exact absurd h (by simp)
  | some vv =>
      rw [hv] at h
      dsimp only at h
      split at h
      · cases h; exact setVar_evframe _ _ _
      · cases h; exact ⟨rfl, rfl⟩

theorem pendAll_evframe (sync : Bool) (l : List String) :
    ∀ s s', pendAll sync s l = some s' → EvFrame s s' := by
  induction l with
  | nil =>
      intro s s' h
      simp [pendAll] at h
      subst h
      exact evframe_refl s
  | cons vid rest ih =>
      intro s s' h
      simp only [pendAll] at h
      cases hc : pendOutput sync s vid with
      | none => rw [hc] at h; exact absurd h (by simp)
      | some s1 =>
          rw [hc] at h
          exact evframe_trans (pendOutput_evframe sync s vid s1 hc) (ih s1 s' h)

theorem activateMethod_evframe (s : PMState) (mid : Id) (s' : PMState)
    (h : activateMethod s mid = some s') : EvFrame s s' := by
  unfold activateMethod at h
  cases hm : alookup s.methodsD mid with
  | none => rw [hm] at h; exact absurd h (by simp)
  | some mm =>
      rw [hm] at h
      dsimp only at h
      exact evframe_trans (evframe_refl _ : EvFrame s { s with executed := s.executed ++ [mid] })
        (pendAll_evframe mm.sync mm.outputs _ s' h)

theorem activateAll_evframe (l : List Id) :
    ∀ s s', activateAll s l = some s' → EvFrame s s' := by
  induction l with
  | nil =>
      intro s s' h
      simp [activateAll] at h
      subst h
      exact evframe_refl s
  | cons mid rest ih =>
      intro s s' h
      simp only [activateAll] at h
      cases hc : activateMethod s mid with
      | none => rw [hc] at h; exact absurd h (by simp)
      | some s1 =>
          rw [hc] at h
          exact evframe_trans (activateMethod_evframe s mid s1 hc) (ih s1 s' h)

theorem evalTail_evframe (s1 : PMState) (sched : List Id) (vids : List String)
    (s' : PMState)
    (h : (match activateAll s1 sched with
          | none => none
          | some s2 =>
              match commitAll s2 vids with
              | none => none
              | some s3 => some { s3 with needEvaluating := ([] : List Id) }) =
        some s') :
    EvFrame s1 s' := by
  cases ha : activateAll s1 sched with
  | none => rw [ha] at h; exact absurd h (by simp)
  | some s2 =>
      rw [ha] at h
      dsimp only at h
      cases hc : commitAll s2 vids with
      | none => rw [hc] at h; exact absurd h (by simp)
      | some s3 =>
          rw [hc] at h
          cases h
          have hf3 := commitAll_evframe vids s2 s3 hc
          exact evframe_trans (activateAll_evframe sched s1 s2 ha)
            (evframe_trans hf3 ⟨rfl, rfl⟩)

theorem evaluate_evframe (s s' : PMState) (h : evaluate s = some s') :
    EvFrame s s' := by
  unfold evaluate at h
  cases hsg : s.sgraph with
  | none => rw [hsg] at h; exact absurd h (by simp)
  | some sg =>
      rw [hsg] at h
      dsimp only at h
      cases hc : commitAll s
          (nodesDownstreamOtherType sg.meths
            (s.needEvaluating.filterMap fun cid => sg.selectedForConstraint cid)) with
      | none => rw [hc] at h; exact absurd h (by simp)
      | some s1 =>
          rw [hc] at h
          dsimp only at h
          have hf1 : EvFrame s s1 := commitAll_evframe _ s s1 hc
          split at h
          · exact evframe_trans hf1 (evalTail_evframe s1 _ _ s' h)
          · cases h
            exact hf1

theorem updateModel_nil (s : PMState) (h : s.needUpdating = []) :
    updateModel s = some s := by
  unfold updateModel
  rw [h]
  simp [updateModelLoop]

theorem planPM_fail (ops : PlannerOps) (s : PMState)
    (hne : s.needEnforcing ≠ [])
    (hfail : ops.planFn s.plannerOrder s.sgraph s.needEnforcing = none) :
    planPM ops s = some { s with needEnforcing := [] } := by
  unfold planPM
  rw [if_neg (by simp [List.isEmpty_iff, hne])]
  rw [hfail]

/-- C3 (amended): when the planner fails during an update (with no context
changes queued), the previous solution graph is retained unchanged and
`needEnforcing` is cleared, but the update does NOT stop: it proceeds to the
evaluation phase against the previous solution graph, and at its end raises
`solved` whenever `pendingCount` is zero.  (The claim's "completes without
evaluating" and "`solved` stays false" are refuted by
`plan_failure_still_evaluates`.) -/
theorem planFailure_update_behavior (ops : PlannerOps) (s : PMState)
    (hneed : s.isUpdateNeeded = true)
    (hupd : s.needUpdating = [])
    (hcids : s.needEnforcing ≠ [])
    (hfail : ops.planFn s.plannerOrder s.sgraph s.needEnforcing = none) :
    update ops s =
      (evaluate { s with isUpdateNeeded := false, needEnforcing := [] }).map
        (fun t => if t.pendingCount = 0 then solvedSet t true else t) ∧
    ∀ s', update ops s = some s' →
      s'.sgraph = s.sgraph ∧ s'.needEnforcing = [] := by
  have hmain : update ops s =
      (evaluate { s with isUpdateNeeded := false, needEnforcing := [] }).map
        (fun t => if t.pendingCount = 0 then solvedSet t true else t) := by
    unfold update
    rw [if_pos hneed]
    rw [updateModel_nil { s with isUpdateNeeded := false } hupd]
    dsimp only
    rw [planPM_fail ops { s with isUpdateNeeded := false } hcids hfail]
    dsimp only
    cases evaluate { s with isUpdateNeeded := false, needEnforcing := [] } <;> rfl
  refine ⟨hmain, ?_⟩
  intro s' h
  rw [hmain] at h
  rcases Option.map_eq_some'.1 h with ⟨t, hev, hft⟩
  have hf := evaluate_evframe _ t hev
  have hsg : t.sgraph = s.sgraph := hf.1
  have hne : t.needEnforcing = [] := hf.2
  rw [← hft]
  by_cases hp : t.pendingCount = 0
  · simp only [hp, if_pos rfl]
    exact ⟨hsg, hne⟩
  · rw [if_neg hp]
    exact ⟨hsg, hne⟩

/-- A state with a previous solution graph `stay(x); M : x → y`, a pending
evaluation of `stay(x)`, and a constraint queued for enforcement that the
planner will fail on. -/
def exC3state : PMState :=
  { initState with
      varsD :=
        [("x", ⟨"x", Optional.Default, false, false, true⟩),
         ("y", ⟨"y", Optional.Default, false, false, false⟩)],
      methodsD := [(Id.user "M", ⟨"M", ["x"], ["y"], true⟩)],
      sgraph := some
        ⟨[(Id.stayCon "x", Id.stayMeth "x"), (Id.user "C", Id.user "M")],
         [(Id.stayMeth "x", ⟨Id.stayCon "x", [], ["x"]⟩),
          (Id.user "M", ⟨Id.user "C", ["x"], ["y"]⟩)],
         ["x", "y"]⟩,
      topomids := [Id.stayMeth "x", Id.user "M"],
      needEnforcing := [Id.user "R"],
      needEvaluating := [Id.stayCon "x"],
      isUpdateNeeded := true }

/-- The state after the failing update on `exC3state`. -/
def exC3res : PMState := (update failOps exC3state).getD initState

/-- C3 (refuting the claim as stated): the planner fails on the queued
constraint, the previous solution graph is retained — but the update still
evaluates (method `M` of the old solution graph runs) and `solved` is set to
true at the end of the update rather than staying false. -/
theorem plan_failure_still_evaluates :
    failOps.planFn exC3state.plannerOrder exC3state.sgraph
      exC3state.needEnforcing = none ∧
    (update failOps exC3state).isSome = true ∧
    exC3res.sgraph = exC3state.sgraph ∧
    exC3res.executed = [Id.user "M"] ∧
    exC3res.solved = true := by decide

/-- The amended planner-failure behaviour at the concrete input of
`exC3state` with the always-failing planner. -/
theorem planFailure_update_behavior_witness :
    (update failOps exC3state =
      (evaluate { exC3state with isUpdateNeeded := false, needEnforcing := [] }).map
        (fun t => if t.pendingCount = 0 then solvedSet t true else t) ∧
    ∀ s', update failOps exC3state = some s' →
      s'.sgraph = exC3state.sgraph ∧ s'.needEnforcing = []) :=
  planFailure_update_behavior failOps exC3state (by decide) (by decide)
    (by decide) (by decide)

/-! ## Claim C2: the `solved` signal discipline

The ghost `solvedLog` records every `solved.set` call together with the
`pendingCount` and `isUpdateNeeded` at that moment.  The discipline proved
below: every write of `true` happens with `pendingCount = 0`. -/

/-- Every true entry of a solved-set log was written with zero pending
variables. -/
def GoodLog (L : List SolvedSet) : Prop :=
  ∀ e ∈ L, e.value = true → e.pc = 0

/-- The second state's log extends the first's by well-disciplined entries. -/
def LogExt (s s' : PMState) : Prop :=
  ∃ t, s'.solvedLog = s.solvedLog ++ t ∧ GoodLog t

theorem goodLog_append {t1 t2 : List SolvedSet} (h1 : GoodLog t1)
    (h2 : GoodLog t2) : GoodLog (t1 ++ t2) := by
  intro e he
  rcases List.mem_append.1 he with h | h
  · exact h1 e h
  · exact h2 e h

theorem logext_of_eq {s s' : PMState} (h : s'.solvedLog = s.solvedLog) :
    LogExt s s' :=
  ⟨[], by simp [h], by intro e he; simp at he⟩

theorem logext_refl (s : PMState) : LogExt s s := logext_of_eq rfl

theorem logext_trans {a b c : PMState} (h1 : LogExt a b) (h2 : LogExt b c) :
    LogExt a c := by
  obtain ⟨t1, e1, g1⟩ := h1
  obtain ⟨t2, e2, g2⟩ := h2
  exact ⟨t1 ++ t2, by rw [e2, e1, List.append_assoc], goodLog_append g1 g2⟩

theorem goodLog_of_logext {s s' : PMState} (h : LogExt s s')
    (hg : GoodLog s.solvedLog) : GoodLog s'.solvedLog := by
  obtain ⟨t, e, g⟩ := h
  rw [e]
  exact goodLog_append hg g

theorem logext_solvedSet (s : PMState) (b : Bool)
    (h : b = true → s.pendingCount = 0) : LogExt s (solvedSet s b) := by
  refine ⟨[⟨b, s.pendingCount, s.isUpdateNeeded⟩], rfl, ?_⟩
  intro e he hv
  simp at he
  subst he
  simp at hv
  simp [hv, h hv]

theorem scheduleUpdate_solvedLog (s : PMState) :
    (scheduleUpdate s).solvedLog = s.solvedLog := by
  unfold scheduleUpdate
  split <;> rfl

theorem logext_recordChange (s : PMState) : LogExt s (recordChange s) := by
  unfold recordChange
  dsimp only
  have h1 : LogExt s (solvedSet { s with isUpdateNeeded := true } false) :=
    logext_trans (logext_of_eq rfl)
      (logext_solvedSet { s with isUpdateNeeded := true } false (by simp))
  split
  · exact logext_trans h1 (logext_of_eq (scheduleUpdate_solvedLog _))
  · exact h1

theorem logext_recordConstraintChange (s : PMState) (cid : Id) :
    LogExt s (recordConstraintChange s cid) :=
  logext_trans (logext_of_eq rfl)
    (logext_recordChange { s with needEnforcing := setAdd s.needEnforcing cid })

theorem logext_recordVariableChange (s : PMState) (stayid : Id) :
    LogExt s (recordVariableChange s stayid) :=
  logext_trans (logext_of_eq rfl)
    (logext_recordChange { s with needEvaluating := setAdd s.needEvaluating stayid })

theorem logext_recordContextChange (s : PMState) (ctx : Ctx) :
    LogExt s (recordContextChange s ctx) :=
  logext_trans (logext_of_eq rfl)
    (logext_recordChange { s with needUpdating := arrayAdd s.needUpdating ctx })

theorem logext_foldl {β : Type} (f : PMState → β → PMState)
    (hf : ∀ t x, LogExt t (f t x)) (l : List β) :
    ∀ s, LogExt s (l.foldl f s) := by
  induction l with
  | nil => intro s; exact logext_refl s
  | cons x rest ih =>
      intro s
      simp only [List.foldl_cons]
      exact logext_trans (hf s x) (ih (f s x))

theorem logext_addVariable (s : PMState) (vv : Variable) :
    LogExt s (addVariable s vv) := by
  unfold addVariable
  split
  · exact logext_refl s
  · refine logext_trans (logext_of_eq ?_) (logext_recordConstraintChange _ _)
    cases hvp : vv.pending <;> cases vv.optional <;> simp [hvp]

theorem logext_removeVariable (s : PMState) (vv : Variable) :
    LogExt s (removeVariable s vv) := by
  unfold removeVariable
  split
  · exact logext_of_eq rfl
  · exact logext_refl s

theorem logext_addMethodPM (t : PMState) (cid : Id) (mm : Method) :
    LogExt t (addMethodPM t cid mm) := by
  unfold addMethodPM
  split
  · exact logext_refl t
  · exact logext_of_eq rfl

theorem logext_addConstraint (s : PMState) (cc : Constraint) :
    LogExt s (addConstraint s cc) := by
  unfold addConstraint
  split
  · exact logext_refl s
  · dsimp only
    have h2 := logext_foldl _ (fun t mm => logext_addMethodPM t (Id.user cc.id) mm)
      cc.methods { s with constraintsD := s.constraintsD ++ [(Id.user cc.id, cc)] }
    refine logext_trans (logext_trans (logext_of_eq rfl) h2) ?_
    generalize (cc.methods.foldl (fun t mm => addMethodPM t (Id.user cc.id) mm)
      { s with constraintsD := s.constraintsD ++ [(Id.user cc.id, cc)] }) = s2
    refine logext_trans (logext_of_eq ?_) (logext_recordConstraintChange _ _)
    cases cc.optional <;> rfl

theorem removeMethodPM_solvedLog (s : PMState) (mm : Method) :
    (removeMethodPM s mm).solvedLog = s.solvedLog := by
  unfold removeMethodPM
  split <;> rfl

theorem removeConstraint_solvedLog (s : PMState) (cc : Constraint)
    (s' : PMState) (h : removeConstraint s cc = some s') :
    s'.solvedLog = s.solvedLog := by
  unfold removeConstraint at h
  split at h
  · dsimp only at h
    have hfold : (cc.methods.foldl (fun t mm => removeMethodPM t mm)
        (removeConstraintRecords
          { s with constraintsD := eraseKey s.constraintsD (Id.user cc.id) }
          (Id.user cc.id))).solvedLog = s.solvedLog := by
      generalize hs2 : removeConstraintRecords
          { s with constraintsD := eraseKey s.constraintsD (Id.user cc.id) }
          (Id.user cc.id) = s2
      have h2 : s2.solvedLog = s.solvedLog := by rw [← hs2]; rfl
      clear hs2
      induction cc.methods generalizing s2 with
      | nil => simpa using h2
      | cons mm rest ih =>
          simp only [List.foldl_cons]
          exact ih _ ((removeMethodPM_solvedLog s2 mm).trans h2)
    split at h
    · exact absurd h (by simp)
    · cases h
      exact hfold
  · cases h
    rfl

theorem logext_addOutput (s : PMState) (vv : Variable) :
    LogExt s (addOutput s vv) :=
  logext_of_eq (addOutput_removeOutput_frame s vv).1.2.2.2.2.2.2.2.2.2.2.2.2.2.2.2.2.2.2.1

theorem logext_removeOutput (s : PMState) (vv : Variable) :
    LogExt s (removeOutput s vv) :=
  logext_of_eq (addOutput_removeOutput_frame s vv).2.2.2.2.2.2.2.2.2.2.2.2.2.2.2.2.2.2.2.1

theorem logext_addTouchDependency (s : PMState) (e1 e2 : TDEnd) :
    LogExt s (addTouchDependency s e1 e2) := by
  unfold addTouchDependency
  cases alookup s.touchDeps e1.cid <;> exact logext_of_eq rfl

theorem logext_removeTouchDependency (s : PMState) (e1 e2 : TDEnd) :
    LogExt s (removeTouchDependency s e1 e2) := by
  unfold removeTouchDependency
  cases alookup s.touchDeps e1.cid <;> exact logext_of_eq rfl

theorem logext_promoteStep (s : PMState) (c : Id) :
    LogExt s (promoteStep s c) := by
  unfold promoteStep
  dsimp only
  split
  · exact logext_of_eq rfl
  · exact logext_trans (logext_of_eq rfl) (logext_recordConstraintChange _ c)

theorem logext_doPromotions (fuel : Nat) (s : PMState) (origin : Id)
    (s' : PMState) (h : doPromotions fuel s origin = some s') : LogExt s s' := by
  unfold doPromotions at h
  rcases Option.map_eq_some'.1 h with ⟨promote, hcol, hfold⟩
  rw [← hfold]
  exact logext_foldl _ logext_promoteStep _ s

theorem logext_settledEvent (s : PMState) : LogExt s (settledEvent s) := by
  unfold settledEvent
  dsimp only
  split
  · split
    · next hcond =>
        exact logext_trans (logext_of_eq rfl)
          (logext_solvedSet _ true (fun _ => hcond.1))
    · exact logext_of_eq rfl
  · exact logext_refl s

theorem logext_commitPromiseVar (s : PMState) (vid : String) (s' : PMState)
    (h : commitPromiseVar s vid = some s') : LogExt s s' := by
  unfold commitPromiseVar at h
  cases hv : alookup s.varsD vid with
  | none => rw [hv] at h; exact absurd h (by simp)
  | some vv =>
      rw [hv] at h
      dsimp only at h
      split at h
      · cases h
        exact logext_trans (logext_of_eq rfl) (logext_settledEvent _)
      · cases h
        exact logext_refl s

theorem logext_commitAll (l : List String) :
    ∀ s s', commitAll s l = some s' → LogExt s s' := by
  induction l with
  | nil =>
      intro s s' h
      simp [commitAll] at h
      subst h
      exact logext_refl s
  | cons vid rest ih =>
      intro s s' h
      simp only [commitAll] at h
      cases hc : commitPromiseVar s vid with
      | none => rw [hc] at h; exact absurd h (by simp)
      | some s1 =>
          rw [hc] at h
          exact logext_trans (logext_commitPromiseVar s vid s1 hc) (ih s1 s' h)

theorem pendOutput_solvedLog (sync : Bool) (s : PMState) (vid : String)
    (s' : PMState) (h : pendOutput sync s vid = some s') :
    s'.solvedLog = s.solvedLog := by
  unfold pendOutput at h
  cases hv : alookup s.varsD vid with
  | none => rw [hv] at h; exact absurd h (by simp)
  | some vv =>
      rw [hv] at h
      dsimp only at h
      split at h <;> (cases h; rfl)

theorem pendAll_solvedLog (sync : Bool) (l : List String) :
    ∀ s s', pendAll sync s l = some s' → s'.solvedLog = s.solvedLog := by
  induction l with
  | nil =>
      intro s s' h
      simp [pendAll] at h
      subst h
      rfl
  | cons vid rest ih =>
      intro s s' h
      simp only [pendAll] at h
      cases hc : pendOutput sync s vid with
      | none => rw [hc] at h; exact absurd h (by simp)
      | some s1 =>
          rw [hc] at h
          exact (ih s1 s' h).trans (pendOutput_solvedLog sync s vid s1 hc)

theorem activateMethod_solvedLog (s : PMState) (mid : Id) (s' : PMState)
    (h : activateMethod s mid = some s') : s'.solvedLog = s.solvedLog := by
  unfold activateMethod at h
  cases hm : alookup s.methodsD mid with
  | none => rw [hm] at h; exact absurd h (by simp)
  | some mm =>
      rw [hm] at h
      dsimp only at h
      exact pendAll_solvedLog mm.sync mm.outputs
        { s with executed := s.executed ++ [mid] } s' h

theorem activateAll_solvedLog (l : List Id) :
    ∀ s s', activateAll s l = some s' → s'.solvedLog = s.solvedLog := by
  induction l with
  | nil =>
      intro s s' h
      simp [activateAll] at h
      subst h
      rfl
  | cons mid rest ih =>
      intro s s' h
      simp only [activateAll] at h
      cases hc : activateMethod s mid with
      | none => rw [hc] at h; exact absurd h (by simp)
      | some s1 =>
          rw [hc] at h
          exact (ih s1 s' h).trans (activateMethod_solvedLog s mid s1 hc)

theorem logext_evaluate (s s' : PMState) (h : evaluate s = some s') :
    LogExt s s' := by
  unfold evaluate at h
  cases hsg : s.sgraph with
  | none => rw [hsg] at h; exact absurd h (by simp)
  | some sg =>
      rw [hsg] at h
      dsimp only at h
      cases hc : commitAll s
          (nodesDownstreamOtherType sg.meths
            (s.needEvaluating.filterMap fun cid => sg.selectedForConstraint cid)) with
      | none => rw [hc] at h; exact absurd h (by simp)
      | some s1 =>
          rw [hc] at h
          dsimp only at h
          have hf1 : LogExt s s1 := logext_commitAll _ s s1 hc
          split at h
          · cases ha : activateAll s1
                (s1.topomids.filter fun mid =>
                  decide (mid ∈ (nodesDownstreamSameType sg.meths
                    (s.needEvaluating.filterMap fun cid =>
                      sg.selectedForConstraint cid)).filter
                        fun mid => decide ¬ mid.isStayMeth = true)) with
            | none => rw [ha] at h; exact absurd h (by simp)
            | some s2 =>
                rw [ha] at h
                dsimp only at h
                cases hc2 : commitAll s2
                    (nodesDownstreamOtherType sg.meths
                      (s.needEvaluating.filterMap fun cid =>
                        sg.selectedForConstraint cid)) with
                | none => rw [hc2] at h; exact absurd h (by simp)
                | some s3 =>
                    rw [hc2] at h
                    cases h
                    exact logext_trans hf1
                      (logext_trans (logext_activateAll_aux ha)
                        (logext_trans (logext_commitAll _ s2 s3 hc2)
                          (logext_of_eq rfl)))
          · cases h
            exact hf1
where
  logext_activateAll_aux {s1 s2 : PMState} {l : List Id}
      (ha : activateAll s1 l = some s2) : LogExt s1 s2 :=
    logext_of_eq (activateAll_solvedLog l s1 s2 ha)

theorem reevaluateIfEmergingSource_solvedLog (sg : SGraph) (s : PMState)
    (vid : String) (s' : PMState)
    (h : reevaluateIfEmergingSource sg s vid = some s') :
    s'.solvedLog = s.solvedLog := by
  unfold reevaluateIfEmergingSource at h
  cases hv : alookup s.varsD vid with
  | none => rw [hv] at h; exact absurd h (by simp)
  | some vv =>
      rw [hv] at h
      dsimp only at h
      split at h
      · cases hp : pendOutput true s vid with
        | none => rw [hp] at h; exact absurd h (by simp)
        | some s1 =>
            rw [hp] at h
            dsimp only at h
            cases h
            exact pendOutput_solvedLog true s vid s1 hp
      · cases h
        rfl

theorem emergeAll_solvedLog (sg : SGraph) (l : List String) :
    ∀ s s', emergeAll sg s l = some s' → s'.solvedLog = s.solvedLog := by
  induction l with
  | nil =>
      intro s s' h
      simp [emergeAll] at h
      subst h
      rfl
  | cons vid rest ih =>
      intro s s' h
      simp only [emergeAll] at h
      cases hc : reevaluateIfEmergingSource sg s vid with
      | none => rw [hc] at h; exact absurd h (by simp)
      | some s1 =>
          rw [hc] at h
          exact (ih s1 s' h).trans
            (reevaluateIfEmergingSource_solvedLog sg s vid s1 hc)

theorem updateSourceStatus_solvedLog (sg : SGraph) (s : PMState)
    (vid : String) (s' : PMState) (h : updateSourceStatus sg s vid = some s') :
    s'.solvedLog = s.solvedLog := by
  unfold updateSourceStatus at h
  cases hv : alookup s.varsD vid with
  | none => rw [hv] at h; exact absurd h (by simp)
  | some vv =>
      rw [hv] at h
      cases h
      rfl

theorem sourcesAll_solvedLog (sg : SGraph) (l : List String) :
    ∀ s s', sourcesAll sg s l = some s' → s'.solvedLog = s.solvedLog := by
  induction l with
  | nil =>
      intro s s' h
      simp [sourcesAll] at h
      subst h
      rfl
  | cons vid rest ih =>
      intro s s' h
      simp only [sourcesAll] at h
      cases hc : updateSourceStatus sg s vid with
      | none => rw [hc] at h; exact absurd h (by simp)
      | some s1 =>
          rw [hc] at h
          exact (ih s1 s' h).trans (updateSourceStatus_solvedLog sg s vid s1 hc)

theorem planPM_solvedLog (ops : PlannerOps) (s s' : PMState)
    (h : planPM ops s = some s') : s'.solvedLog = s.solvedLog := by
  unfold planPM at h
  dsimp only at h
  split at h
  · cases h
    rfl
  · cases hp : ops.planFn s.plannerOrder s.sgraph s.needEnforcing with
    | none =>
        rw [hp] at h
        cases h
        rfl
    | some sg =>
        rw [hp] at h
        dsimp only at h
        cases hpr : prioScan
            { s with sgraph := some sg,
                     topomids := ops.toposortFn s.cgraph sg s.plannerOrder }
            (ops.toposortFn s.cgraph sg s.plannerOrder).reverse [] with
        | none => rw [hpr] at h; exact absurd h (by simp)
        | some priorities =>
            rw [hpr] at h
            dsimp only at h
            split at h
            · exact absurd h (by simp)
            · next s5 heq =>
                have hlog5 : s5.solvedLog = s.solvedLog := by
                  by_cases hf : s.forwardEmergingSources = true
                  · rw [if_pos hf] at heq
                    have h5 := emergeAll_solvedLog sg sg.vars _ s5 heq
                    exact h5
                  · rw [if_neg hf] at heq
                    cases heq
                    rfl
                split at h
                · exact absurd h (by simp)
                · next s6 heq2 =>
                    cases h
                    exact (sourcesAll_solvedLog sg sg.vars s5 s6 heq2).trans hlog5

theorem logext_applyRemove (s : PMState) (el : CtxElem) (s' : PMState)
    (h : applyRemove s el = some s') : LogExt s s' := by
  cases el with
  | con cc =>
      simp only [applyRemove] at h
      exact logext_of_eq (removeConstraint_solvedLog s cc s' h)
  | out vv =>
      simp only [applyRemove] at h
      cases h
      exact logext_removeOutput s vv
  | touch e1 e2 =>
      simp only [applyRemove] at h
      cases h
      exact logext_removeTouchDependency s e1 e2

theorem logext_applyAdd (s : PMState) (el : CtxElem) (s' : PMState)
    (h : applyAdd s el = some s') : LogExt s s' := by
  cases el with
  | con cc =>
      simp only [applyAdd] at h
      cases h
      exact logext_addConstraint s cc
  | out vv =>
      simp only [applyAdd] at h
      cases h
      exact logext_addOutput s vv
  | touch e1 e2 =>
      simp only [applyAdd] at h
      cases h
      exact logext_addTouchDependency s e1 e2

theorem logext_applyRemoves (l : List CtxElem) :
    ∀ s s', applyRemoves s l = some s' → LogExt s s' := by
  induction l with
  | nil =>
      intro s s' h
      simp [applyRemoves] at h
      subst h
      exact logext_refl s
  | cons el rest ih =>
      intro s s' h
      simp only [applyRemoves] at h
      cases hc : applyRemove s el with
      | none => rw [hc] at h; exact absurd h (by simp)
      | some s1 =>
          rw [hc] at h
          exact logext_trans (logext_applyRemove s el s1 hc) (ih s1 s' h)

theorem logext_applyAdds (l : List CtxElem) :
    ∀ s s', applyAdds s l = some s' → LogExt s s' := by
  induction l with
  | nil =>
      intro s s' h
      simp [applyAdds] at h
      subst h
      exact logext_refl s
  | cons el rest ih =>
      intro s s' h
      simp only [applyAdds] at h
      cases hc : applyAdd s el with
      | none => rw [hc] at h; exact absurd h (by simp)
      | some s1 =>
          rw [hc] at h
          exact logext_trans (logext_applyAdd s el s1 hc) (ih s1 s' h)

theorem logext_updateModelLoop (fuel : Nat) :
    ∀ s i l s', updateModelLoop s fuel i l = some s' → LogExt s s' := by
  induction fuel with
  | zero =>
      intro s i l s' h
      exact absurd h (by simp [updateModelLoop])
  | succ fuel ih =>
      intro s i l s' h
      simp only [updateModelLoop] at h
      split at h
      · cases hg : s.needUpdating.get? i with
        | none =>
            rw [hg] at h
            cases h
            exact logext_refl s
        | some ctx =>
            rw [hg] at h
            dsimp only at h
            cases hr : applyRemoves
                { s with reportLog := s.reportLog ++ [ctx.tag] } ctx.removes with
            | none => rw [hr] at h; exact absurd h (by simp)
            | some s1 =>
                rw [hr] at h
                dsimp only at h
                cases ha : applyAdds s1 ctx.adds with
                | none => rw [ha] at h; exact absurd h (by simp)
                | some s2 =>
                    rw [ha] at h
                    have hr2 := logext_applyRemoves ctx.removes _ s1 hr
                    have ha2 := logext_applyAdds ctx.adds s1 s2 ha
                    exact logext_trans
                      (logext_trans (logext_of_eq rfl) hr2)
                      (logext_trans ha2 (ih s2 _ _ s' h))
      · cases h
        exact logext_refl s

theorem logext_update (ops : PlannerOps) (s s' : PMState)
    (h : update ops s = some s') : LogExt s s' := by
  unfold update at h
  split at h
  · cases hum : updateModel { s with isUpdateNeeded := false } with
    | none => rw [hum] at h; exact absurd h (by simp)
    | some s1 =>
        rw [hum] at h
        dsimp only at h
        cases hpl : planPM ops s1 with
        | none => rw [hpl] at h; exact absurd h (by simp)
        | some s2 =>
            rw [hpl] at h
            dsimp only at h
            cases hev : evaluate s2 with
            | none => rw [hev] at h; exact absurd h (by simp)
            | some s3 =>
                rw [hev] at h
                cases h
                have hum2 := logext_updateModelLoop _ _ _ _ s1 hum
                have l1 : LogExt s s1 :=
                  logext_trans (logext_of_eq rfl) hum2
                have l2 : LogExt s1 s2 :=
                  logext_of_eq (planPM_solvedLog ops s1 s2 hpl)
                have l3 : LogExt s2 s3 := logext_evaluate s2 s3 hev
                have l4 : LogExt s3
                    (if s3.pendingCount = 0 then solvedSet s3 true else s3) := by
                  split
                  · next hp => exact logext_solvedSet s3 true (fun _ => hp)
                  · exact logext_refl s3
                exact logext_trans (logext_trans (logext_trans l1 l2) l3) l4
  · cases h
    exact logext_refl s

theorem logext_onNextVariableChange (fuel : Nat) (s : PMState)
    (ty : VariableEventType) (vv : Variable) (s' : PMState)
    (h : onNextVariableChange fuel s ty vv = some s') : LogExt s s' := by
  cases ty with
  | touched =>
      simp only [onNextVariableChange, variableTouched] at h
      exact logext_doPromotions fuel s _ s' h
  | changed =>
      simp only [onNextVariableChange, variableChanged] at h
      rcases Option.map_eq_some'.1 h with ⟨t, hdp, hrec⟩
      rw [← hrec]
      exact logext_trans (logext_doPromotions fuel s _ t hdp)
        (logext_recordVariableChange t _)
  | pending =>
      simp only [onNextVariableChange] at h
      cases h
      exact logext_of_eq rfl
  | settled =>
      simp only [onNextVariableChange] at h
      cases h
      exact logext_settledEvent s

theorem step_logext {s s' : PMState} (h : Step s s') : LogExt s s' := by
  cases h with
  | addVar s vv => exact logext_addVariable s vv
  | rmVar s vv => exact logext_removeVariable s vv
  | addCon s cc => exact logext_addConstraint s cc
  | rmCon s cc s' hr => exact logext_of_eq (removeConstraint_solvedLog s cc s' hr)
  | addOut s vv => exact logext_addOutput s vv
  | rmOut s vv => exact logext_removeOutput s vv
  | addTD s e1 e2 => exact logext_addTouchDependency s e1 e2
  | rmTD s e1 e2 => exact logext_removeTouchDependency s e1 e2
  | ctxChange s ctx => exact logext_recordContextChange s ctx
  | rmCtxRec s ctx => exact logext_of_eq rfl
  | varEvent fuel s ty vv s' he => exact logext_onNextVariableChange fuel s ty vv s' he
  | upd ops s s' hu => exact logext_update ops s s' hu
  | schedUpd ops s s' hu =>
      exact logext_trans (logext_of_eq rfl)
        (logext_update ops { s with isUpdateScheduled := false } s' hu)
  | switchPlanner s =>
      exact logext_foldl _ (fun t cid => logext_recordConstraintChange t cid) _ s

theorem reachable_goodLog (s : PMState) (h : Reachable s) :
    GoodLog s.solvedLog := by
  induction h with
  | refl =>
      intro e he
      simp [initState] at he
  | tail hab hbc ih => exact goodLog_of_logext (step_logext hbc) ih

/-- C2 (amended): in every reachable state, every write of `true` to the
`solved` signal happened with `pendingCount = 0` at the moment of the write;
the settled-event site additionally requires `isUpdateNeeded` to be false
(it either leaves `solved` alone or writes `true` with both conditions met);
and every recorded change — variable, constraint or context — leaves `solved`
false.  (The claim's stronger statement, that `solved` is set to true only
when `isUpdateNeeded` is also false, is refuted by
`solved_raised_while_update_needed`: `update()` re-raises `solved` at its end
whenever `pendingCount = 0`, even when the adds it applied from a queued
context have set `isUpdateNeeded` again.) -/
theorem solved_write_discipline (s : PMState) (h : Reachable s) :
    (∀ e ∈ s.solvedLog, e.value = true → e.pc = 0) ∧
    (∀ ctx, (recordContextChange s ctx).solved = false) ∧
    (∀ cid, (recordConstraintChange s cid).solved = false) ∧
    (∀ stayid, (recordVariableChange s stayid).solved = false) ∧
    (∀ t : PMState, (settledEvent t).solved = true →
      t.solved = true ∨
        ((settledEvent t).pendingCount = 0 ∧
          (settledEvent t).isUpdateNeeded = false)) := by
  refine ⟨reachable_goodLog s h, ?_, ?_, ?_, ?_⟩
  · intro ctx
    exact (recordChange_spec _).2.2.2.2
  · intro cid
    exact (recordChange_spec _).2.2.2.2
  · intro stayid
    exact (recordChange_spec _).2.2.2.2
  · intro t ht
    unfold settledEvent at ht ⊢
    by_cases hp : t.pendingCount > 0
    · rw [if_pos hp] at ht ⊢
      dsimp only at ht ⊢
      by_cases hc : t.pendingCount - 1 = 0 ∧ t.isUpdateNeeded = false
      · rw [if_pos hc] at ht ⊢
        right
        unfold solvedSet
        exact ⟨hc.1, hc.2⟩
      · rw [if_neg hc] at ht
        exact Or.inl ht
    · rw [if_neg hp] at ht
      exact Or.inl ht

/-- A planner whose `plan` always succeeds with an empty solution graph. -/
def okOps : PlannerOps := ⟨fun _ _ _ => some ⟨[], [], []⟩, fun _ _ _ => []⟩

/-- A context that adds one (method-less, default-optional) constraint. -/
def ctxC2 : Ctx := ⟨3, [CtxElem.con ⟨"C", [], Optional.Default⟩], []⟩

/-- The reachable state after the context change is recorded. -/
def exC2mid : PMState := recordContextChange initState ctxC2

/-- The state after the subsequent update. -/
def exC2res : PMState := (update okOps exC2mid).getD initState

/-- C2 (refuting the claim as stated): starting from the constructor state,
record a context change and run `update()`.  The queued constraint add
re-raises `isUpdateNeeded` during `updateModel`, the plan succeeds, and the
end of `update()` sets `solved` to `true` with `pendingCount = 0` but
`isUpdateNeeded = true` — the log records the write `⟨true, 0, true⟩`,
contradicting "solved is set to true only when ... no update is pending". -/
theorem solved_raised_while_update_needed :
    (update okOps exC2mid).isSome = true ∧
    exC2res.solved = true ∧
    exC2res.isUpdateNeeded = true ∧
    SolvedSet.mk true 0 true ∈ exC2res.solvedLog := by decide

/-- The solved-write discipline at the reachable state `exC2mid`. -/
theorem solved_write_discipline_witness :
    ((∀ e ∈ exC2mid.solvedLog, e.value = true → e.pc = 0) ∧
    (∀ ctx, (recordContextChange exC2mid ctx).solved = false) ∧
    (∀ cid, (recordConstraintChange exC2mid cid).solved = false) ∧
    (∀ stayid, (recordVariableChange exC2mid stayid).solved = false) ∧
    (∀ t : PMState, (settledEvent t).solved = true →
      t.solved = true ∨
        ((settledEvent t).pendingCount = 0 ∧
          (settledEvent t).isUpdateNeeded = false))) :=
  solved_write_discipline exC2mid
    (Relation.ReflTransGen.single (Step.ctxChange initState ctxC2))

/-! ## Claim C8: the variable registry and its stay methods -/

/-- The registry/stay invariant: a registered variable appears in the
constraint graph and owns exactly one stay method, whose constraint is its
stay constraint and whose single output is the variable itself; an
unregistered variable has no stay method, and the registry has no duplicate
entries. -/
def RegInvOn (vd : List (String × Variable)) (cg : ConstraintGraph) : Prop :=
  (∀ vid : String, (alookup vd vid).isSome →
      vid ∈ cg.vars ∧
      countKey cg.meths (stayMethod vid) = 1 ∧
      alookup cg.meths (stayMethod vid) =
        some ⟨stayConstraint vid, [], [vid]⟩) ∧
  (∀ vid : String, (alookup vd vid).isSome = false →
      countKey cg.meths (stayMethod vid) = 0) ∧
  (∀ vid : String, countKey vd vid ≤ 1)

def RegInv (s : PMState) : Prop := RegInvOn s.varsD s.cgraph

/-- The parts of the state the registry invariant reads, preserved by every
operation that neither registers/unregisters variables nor touches stay
methods. -/
def StayKeep (s t : PMState) : Prop :=
  (∀ vid, countKey t.varsD vid = countKey s.varsD vid) ∧
  (∀ vid, (alookup t.varsD vid).isSome = (alookup s.varsD vid).isSome) ∧
  (∀ v, countKey t.cgraph.meths (stayMethod v) =
    countKey s.cgraph.meths (stayMethod v)) ∧
  (∀ v, alookup t.cgraph.meths (stayMethod v) =
    alookup s.cgraph.meths (stayMethod v)) ∧
  (∀ v, v ∈ s.cgraph.vars → v ∈ t.cgraph.vars)

theorem staykeep_refl (s : PMState) : StayKeep s s :=
  ⟨fun _ => rfl, fun _ => rfl, fun _ => rfl, fun _ => rfl, fun _ h => h⟩

theorem staykeep_of_eq {s t : PMState} (hv : t.varsD = s.varsD)
    (hc : t.cgraph = s.cgraph) : StayKeep s t := by
  rw [show t = t from rfl] at *
  refine ⟨fun vid => by rw [hv], fun vid => by rw [hv],
    fun v => by rw [hc], fun v => by rw [hc], fun v h => by rw [hc]; exact h⟩

theorem staykeep_trans {a b c : PMState} (h1 : StayKeep a b)
    (h2 : StayKeep b c) : StayKeep a c :=
  ⟨fun vid => (h2.1 vid).trans (h1.1 vid),
   fun vid => (h2.2.1 vid).trans (h1.2.1 vid),
   fun v => (h2.2.2.1 v).trans (h1.2.2.1 v),
   fun v => (h2.2.2.2.1 v).trans (h1.2.2.2.1 v),
   fun v h => h2.2.2.2.2 v (h1.2.2.2.2 v h)⟩

theorem regInv_transport {s t : PMState} (hk : StayKeep s t)
    (h : RegInv s) : RegInv t := by
  obtain ⟨hck, hsk, hmk, hml, hvm⟩ := hk
  refine ⟨?_, ?_, ?_⟩
  · intro vid hv
    have hs : (alookup s.varsD vid).isSome := by rw [← hsk vid]; exact hv
    obtain ⟨h1, h2, h3⟩ := h.1 vid hs
    exact ⟨hvm vid h1, (hmk vid).trans h2, (hml vid).trans h3⟩
  · intro vid hv
    have hs : (alookup s.varsD vid).isSome = false := by
      rw [← hsk vid]; exact hv
    exact (hmk vid).trans (h.2.1 vid hs)
  · intro vid
    rw [hck vid]
    exact h.2.2 vid

theorem staykeep_setVar (s : PMState) (vid : String) (vv : Variable) :
    StayKeep s (setVar s vid vv) :=
  ⟨fun v => countKey_setValue _ _ _ _,
   fun v => alookup_setValue_isSome _ _ _ _,
   fun v => rfl, fun v => rfl, fun v h => h⟩

theorem staykeep_solvedSet (s : PMState) (b : Bool) :
    StayKeep s (solvedSet s b) := staykeep_of_eq rfl rfl

theorem staykeep_scheduleUpdate (s : PMState) :
    StayKeep s (scheduleUpdate s) := by
  unfold scheduleUpdate
  split <;> exact staykeep_of_eq rfl rfl

theorem staykeep_recordChange (s : PMState) : StayKeep s (recordChange s) := by
  unfold recordChange
  dsimp only
  split
  · exact staykeep_trans (staykeep_of_eq rfl rfl) (staykeep_scheduleUpdate _)
  · exact staykeep_of_eq rfl rfl

theorem staykeep_recordConstraintChange (s : PMState) (cid : Id) :
    StayKeep s (recordConstraintChange s cid) :=
  staykeep_trans (staykeep_of_eq rfl rfl)
    (staykeep_recordChange { s with needEnforcing := setAdd s.needEnforcing cid })

theorem staykeep_recordVariableChange (s : PMState) (stayid : Id) :
    StayKeep s (recordVariableChange s stayid) :=
  staykeep_trans (staykeep_of_eq rfl rfl)
    (staykeep_recordChange
      { s with needEvaluating := setAdd s.needEvaluating stayid })

theorem staykeep_recordContextChange (s : PMState) (ctx : Ctx) :
    StayKeep s (recordContextChange s ctx) :=
  staykeep_trans (staykeep_of_eq rfl rfl)
    (staykeep_recordChange { s with needUpdating := arrayAdd s.needUpdating ctx })

theorem staykeep_settledEvent (s : PMState) : StayKeep s (settledEvent s) := by
  unfold settledEvent
  dsimp only
  split
  · split
    · exact staykeep_trans (staykeep_of_eq rfl rfl) (staykeep_solvedSet _ _)
    · exact staykeep_of_eq rfl rfl
  · exact staykeep_refl s

theorem staykeep_commitPromiseVar (s : PMState) (vid : String) (s' : PMState)
    (h : commitPromiseVar s vid = some s') : StayKeep s s' := by
  unfold commitPromiseVar at h
  cases hv : alookup s.varsD vid with
  | none => rw [hv] at h; exact absurd h (by simp)
  | some vv =>
      rw [hv] at h
      dsimp only at h
      split at h
      · cases h
        exact staykeep_trans (staykeep_setVar _ _ _) (staykeep_settledEvent _)
      · cases h
        exact staykeep_refl s

theorem staykeep_commitAll (l : List String) :
    ∀ s s', commitAll s l = some s' → StayKeep s s' := by
  induction l with
  | nil =>
      intro s s' h
      simp [commitAll] at h
      subst h
      exact staykeep_refl s
  | cons vid rest ih =>
      intro s s' h
      simp only [commitAll] at h
      cases hc : commitPromiseVar s vid with
      | none => rw [hc] at h; exact absurd h (by simp)
      | some s1 =>
          rw [hc] at h
          exact staykeep_trans (staykeep_commitPromiseVar s vid s1 hc)
            (ih s1 s' h)

theorem staykeep_pendOutput (sync : Bool) (s : PMState) (vid : String)
    (s' : PMState) (h : pendOutput sync s vid = some s') : StayKeep s s' := by
  unfold pendOutput at h
  cases hv : alookup s.varsD vid with
  | none => rw [hv] at h; exact absurd h (by simp)
  | some vv =>
      rw [hv] at h
      dsimp only at h
      split at h
      · cases h; exact staykeep_setVar _ _ _
      · cases h
        exact staykeep_trans (staykeep_setVar _ _ _) (staykeep_of_eq rfl rfl)

theorem staykeep_pendAll (sync : Bool) (l : List String) :
    ∀ s s', pendAll sync s l = some s' → StayKeep s s' := by
  induction l with
  | nil =>
      intro s s' h
      simp [pendAll] at h
      subst h
      exact staykeep_refl s
  | cons vid rest ih =>
      intro s s' h
      simp only [pendAll] at h
      cases hc : pendOutput sync s vid with
      | none => rw [hc] at h; exact absurd h (by simp)
      | some s1 =>
          rw [hc] at h
          exact staykeep_trans (staykeep_pendOutput sync s vid s1 hc)
            (ih s1 s' h)

theorem staykeep_activateMethod (s : PMState) (mid : Id) (s' : PMState)
    (h : activateMethod s mid = some s') : StayKeep s s' := by
  unfold activateMethod at h
  cases hm : alookup s.methodsD mid with
  | none => rw [hm] at h; exact absurd h (by simp)
  | some mm =>
      rw [hm] at h
      dsimp only at h
      have h2 := staykeep_pendAll mm.sync mm.outputs _ s' h
      exact staykeep_trans (staykeep_of_eq rfl rfl) h2

theorem staykeep_activateAll (l : List Id) :
    ∀ s s', activateAll s l = some s' → StayKeep s s' := by
  induction l with
  | nil =>
      intro s s' h
      simp [activateAll] at h
      subst h
      exact staykeep_refl s
  | cons mid rest ih =>
      intro s s' h
      simp only [activateAll] at h
      cases hc : activateMethod s mid with
      | none => rw [hc] at h; exact absurd h (by simp)
      | some s1 =>
          rw [hc] at h
          exact staykeep_trans (staykeep_activateMethod s mid s1 hc)
            (ih s1 s' h)

theorem staykeep_evaluate (s s' : PMState) (h : evaluate s = some s') :
    StayKeep s s' := by
  unfold evaluate at h
  cases hsg : s.sgraph with
  | none => rw [hsg] at h; exact absurd h (by simp)
  | some sg =>
      rw [hsg] at h
      dsimp only at h
      cases hc : commitAll s
          (nodesDownstreamOtherType sg.meths
            (s.needEvaluating.filterMap fun cid => sg.selectedForConstraint cid)) with
      | none => rw [hc] at h; exact absurd h (by simp)
      | some s1 =>
          rw [hc] at h
          dsimp only at h
          have hf1 : StayKeep s s1 := staykeep_commitAll _ s s1 hc
          split at h
          · split at h
            · exact absurd h (by simp)
            · next s2 heq =>
                split at h
                · exact absurd h (by simp)
                · next s3 heq2 =>
                    cases h
                    exact staykeep_trans hf1
                      (staykeep_trans (staykeep_activateAll _ s1 s2 heq)
                        (staykeep_trans (staykeep_commitAll _ s2 s3 heq2)
                          (staykeep_of_eq rfl rfl)))
          · cases h
            exact hf1

theorem staykeep_reevaluate (sg : SGraph) (s : PMState) (vid : String)
    (s' : PMState) (h : reevaluateIfEmergingSource sg s vid = some s') :
    StayKeep s s' := by
  unfold reevaluateIfEmergingSource at h
  cases hv : alookup s.varsD vid with
  | none => rw [hv] at h; exact absurd h (by simp)
  | some vv =>
      rw [hv] at h
      dsimp only at h
      split at h
      · split at h
        · exact absurd h (by simp)
        · next s1 heq =>
            cases h
            exact staykeep_trans (staykeep_pendOutput true s vid s1 heq)
              (staykeep_of_eq rfl rfl)
      · cases h
        exact staykeep_refl s

theorem staykeep_emergeAll (sg : SGraph) (l : List String) :
    ∀ s s', emergeAll sg s l = some s' → StayKeep s s' := by
  induction l with
  | nil =>
      intro s s' h
      simp [emergeAll] at h
      subst h
      exact staykeep_refl s
  | cons vid rest ih =>
      intro s s' h
      simp only [emergeAll] at h
      cases hc : reevaluateIfEmergingSource sg s vid with
      | none => rw [hc] at h; exact absurd h (by simp)
      | some s1 =>
          rw [hc] at h
          exact staykeep_trans (staykeep_reevaluate sg s vid s1 hc) (ih s1 s' h)

theorem staykeep_updateSourceStatus (sg : SGraph) (s : PMState)
    (vid : String) (s' : PMState) (h : updateSourceStatus sg s vid = some s') :
    StayKeep s s' := by
  unfold updateSourceStatus at h
  cases hv : alookup s.varsD vid with
  | none => rw [hv] at h; exact absurd h (by simp)
  | some vv =>
      rw [hv] at h
      cases h
      exact staykeep_setVar _ _ _

theorem staykeep_sourcesAll (sg : SGraph) (l : List String) :
    ∀ s s', sourcesAll sg s l = some s' → StayKeep s s' := by
  induction l with
  | nil =>
      intro s s' h
      simp [sourcesAll] at h
      subst h
      exact staykeep_refl s
  | cons vid rest ih =>
      intro s s' h
      simp only [sourcesAll] at h
      cases hc : updateSourceStatus sg s vid with
      | none => rw [hc] at h; exact absurd h (by simp)
      | some s1 =>
          rw [hc] at h
          exact staykeep_trans (staykeep_updateSourceStatus sg s vid s1 hc)
            (ih s1 s' h)

theorem staykeep_planPM (ops : PlannerOps) (s s' : PMState)
    (h : planPM ops s = some s') : StayKeep s s' := by
  unfold planPM at h
  dsimp only at h
  split at h
  · cases h
    exact staykeep_refl s
  · cases hp : ops.planFn s.plannerOrder s.sgraph s.needEnforcing with
    | none =>
        rw [hp] at h
        cases h
        exact staykeep_of_eq rfl rfl
    | some sg =>
        rw [hp] at h
        dsimp only at h
        split at h
        · exact absurd h (by simp)
        · next priorities heq1 =>
            split at h
            · exact absurd h (by simp)
            · next s5 heq2 =>
                split at h
                · exact absurd h (by simp)
                · next s6 heq3 =>
                    cases h
                    have k5 : StayKeep s s5 := by
                      by_cases hf : s.forwardEmergingSources = true
                      · rw [if_pos hf] at heq2
                        have k := staykeep_emergeAll sg sg.vars _ s5 heq2
                        exact staykeep_trans (staykeep_of_eq rfl rfl) k
                      · rw [if_neg hf] at heq2
                        cases heq2
                        exact staykeep_of_eq rfl rfl
                    have k6 : StayKeep s5 s6 :=
                      staykeep_sourcesAll sg sg.vars s5 s6 heq3
                    exact staykeep_trans k5
                      (staykeep_trans k6 (staykeep_of_eq rfl rfl))

theorem staykeep_promoteStep (s : PMState) (c : Id) :
    StayKeep s (promoteStep s c) := by
  unfold promoteStep
  dsimp only
  split
  · exact staykeep_of_eq rfl rfl
  · exact staykeep_trans (staykeep_of_eq rfl rfl)
      (staykeep_recordConstraintChange _ c)

theorem staykeep_foldl {β : Type} (f : PMState → β → PMState)
    (hf : ∀ t x, StayKeep t (f t x)) (l : List β) :
    ∀ s, StayKeep s (l.foldl f s) := by
  induction l with
  | nil => intro s; exact staykeep_refl s
  | cons x rest ih =>
      intro s
      simp only [List.foldl_cons]
      exact staykeep_trans (hf s x) (ih (f s x))

theorem staykeep_doPromotions (fuel : Nat) (s : PMState) (origin : Id)
    (s' : PMState) (h : doPromotions fuel s origin = some s') :
    StayKeep s s' := by
  unfold doPromotions at h
  rcases Option.map_eq_some'.1 h with ⟨promote, hcol, hfold⟩
  rw [← hfold]
  exact staykeep_foldl _ staykeep_promoteStep _ s

theorem staykeep_onNextVariableChange (fuel : Nat) (s : PMState)
    (ty : VariableEventType) (vv : Variable) (s' : PMState)
    (h : onNextVariableChange fuel s ty vv = some s') : StayKeep s s' := by
  cases ty with
  | touched =>
      simp only [onNextVariableChange, variableTouched] at h
      exact staykeep_doPromotions fuel s _ s' h
  | changed =>
      simp only [onNextVariableChange, variableChanged] at h
      rcases Option.map_eq_some'.1 h with ⟨t, hdp, hrec⟩
      rw [← hrec]
      exact staykeep_trans (staykeep_doPromotions fuel s _ t hdp)
        (staykeep_recordVariableChange t _)
  | pending =>
      simp only [onNextVariableChange] at h
      cases h
      exact staykeep_of_eq rfl rfl
  | settled =>
      simp only [onNextVariableChange] at h
      cases h
      exact staykeep_settledEvent s

theorem staykeep_addMethodPM (t : PMState) (cid : Id) (mm : Method) :
    StayKeep t (addMethodPM t cid mm) := by
  unfold addMethodPM
  split
  · exact staykeep_refl t
  · unfold ConstraintGraph.addMethod
    split
    · exact staykeep_of_eq rfl rfl
    · refine ⟨fun vid => rfl, fun vid => rfl, ?_, ?_, fun v hv => hv⟩
      · intro v
        dsimp only
        rw [countKey_append]
        simp [countKey, stayMethod]
      · intro v
        dsimp only
        exact alookup_append_singleton_ne _ _ _ _ (by simp [stayMethod])

theorem staykeep_removeMethodPM (t : PMState) (mm : Method) :
    StayKeep t (removeMethodPM t mm) := by
  unfold removeMethodPM
  split
  · unfold ConstraintGraph.removeMethod
    refine ⟨fun vid => rfl, fun vid => rfl, ?_, ?_, fun v hv => hv⟩
    · intro v
      exact countKey_eraseKey_ne _ _ _ (by simp [stayMethod])
    · intro v
      exact alookup_eraseKey_ne _ _ _ (by simp [stayMethod])
  · exact staykeep_refl t

theorem staykeep_addConstraint (s : PMState) (cc : Constraint) :
    StayKeep s (addConstraint s cc) := by
  unfold addConstraint
  split
  · exact staykeep_refl s
  · dsimp only
    have h2 := staykeep_foldl _
      (fun t mm => staykeep_addMethodPM t (Id.user cc.id) mm)
      cc.methods { s with constraintsD := s.constraintsD ++ [(Id.user cc.id, cc)] }
    refine staykeep_trans (staykeep_trans (staykeep_of_eq rfl rfl) h2) ?_
    generalize (cc.methods.foldl (fun t mm => addMethodPM t (Id.user cc.id) mm)
      { s with constraintsD := s.constraintsD ++ [(Id.user cc.id, cc)] }) = s2
    refine staykeep_trans ?_ (staykeep_recordConstraintChange _ _)
    cases cc.optional <;> exact staykeep_of_eq rfl rfl

theorem staykeep_removeConstraint (s : PMState) (cc : Constraint)
    (s' : PMState) (h : removeConstraint s cc = some s') : StayKeep s s' := by
  unfold removeConstraint at h
  split at h
  · dsimp only at h
    split at h
    · exact absurd h (by simp)
    · next sg heq =>
        cases h
        have hfold := staykeep_foldl _
          (fun t mm => staykeep_removeMethodPM t mm) cc.methods
          (removeConstraintRecords
            { s with constraintsD := eraseKey s.constraintsD (Id.user cc.id) }
            (Id.user cc.id))
        exact staykeep_trans (staykeep_of_eq rfl rfl)
          (staykeep_trans hfold (staykeep_of_eq rfl rfl))
  · cases h
    exact staykeep_refl s

theorem staykeep_applyRemove (s : PMState) (el : CtxElem) (s' : PMState)
    (h : applyRemove s el = some s') : StayKeep s s' := by
  cases el with
  | con cc =>
      simp only [applyRemove] at h
      exact staykeep_removeConstraint s cc s' h
  | out vv =>
      simp only [applyRemove] at h
      cases h
      unfold removeOutput
      split <;> exact staykeep_of_eq rfl rfl
  | touch e1 e2 =>
      simp only [applyRemove] at h
      cases h
      unfold removeTouchDependency
      cases alookup s.touchDeps e1.cid <;> exact staykeep_of_eq rfl rfl

theorem staykeep_applyAdd (s : PMState) (el : CtxElem) (s' : PMState)
    (h : applyAdd s el = some s') : StayKeep s s' := by
  cases el with
  | con cc =>
      simp only [applyAdd] at h
      cases h
      exact staykeep_addConstraint s cc
  | out vv =>
      simp only [applyAdd] at h
      cases h
      unfold addOutput
      cases alookup s.outputVids vv.id <;> exact staykeep_of_eq rfl rfl
  | touch e1 e2 =>
      simp only [applyAdd] at h
      cases h
      unfold addTouchDependency
      cases alookup s.touchDeps e1.cid <;> exact staykeep_of_eq rfl rfl

theorem staykeep_applyRemoves (l : List CtxElem) :
    ∀ s s', applyRemoves s l = some s' → StayKeep s s' := by
  induction l with
  | nil =>
      intro s s' h
      simp [applyRemoves] at h
      subst h
      exact staykeep_refl s
  | cons el rest ih =>
      intro s s' h
      simp only [applyRemoves] at h
      cases hc : applyRemove s el with
      | none => rw [hc] at h; exact absurd h (by simp)
      | some s1 =>
          rw [hc] at h
          exact staykeep_trans (staykeep_applyRemove s el s1 hc) (ih s1 s' h)

theorem staykeep_applyAdds (l : List CtxElem) :
    ∀ s s', applyAdds s l = some s' → StayKeep s s' := by
  induction l with
  | nil =>
      intro s s' h
      simp [applyAdds] at h
      subst h
      exact staykeep_refl s
  | cons el rest ih =>
      intro s s' h
      simp only [applyAdds] at h
      cases hc : applyAdd s el with
      | none => rw [hc] at h; exact absurd h (by simp)
      | some s1 =>
          rw [hc] at h
          exact staykeep_trans (staykeep_applyAdd s el s1 hc) (ih s1 s' h)

theorem staykeep_updateModelLoop (fuel : Nat) :
    ∀ s i l s', updateModelLoop s fuel i l = some s' → StayKeep s s' := by
  induction fuel with
  | zero =>
      intro s i l s' h
      exact absurd h (by simp [updateModelLoop])
  | succ fuel ih =>
      intro s i l s' h
      simp only [updateModelLoop] at h
      split at h
      · cases hg : s.needUpdating.get? i with
        | none =>
            rw [hg] at h
            cases h
            exact staykeep_refl s
        | some ctx =>
            rw [hg] at h
            dsimp only at h
            cases hr : applyRemoves
                { s with reportLog := s.reportLog ++ [ctx.tag] } ctx.removes with
            | none => rw [hr] at h; exact absurd h (by simp)
            | some s1 =>
                rw [hr] at h
                dsimp only at h
                cases ha : applyAdds s1 ctx.adds with
                | none => rw [ha] at h; exact absurd h (by simp)
                | some s2 =>
                    rw [ha] at h
                    have hr2 := staykeep_applyRemoves ctx.removes _ s1 hr
                    have ha2 := staykeep_applyAdds ctx.adds s1 s2 ha
                    exact staykeep_trans
                      (staykeep_trans (staykeep_of_eq rfl rfl) hr2)
                      (staykeep_trans ha2 (ih s2 _ _ s' h))
      · cases h
        exact staykeep_refl s

theorem staykeep_update (ops : PlannerOps) (s s' : PMState)
    (h : update ops s = some s') : StayKeep s s' := by
  unfold update at h
  split at h
  · cases hum : updateModel { s with isUpdateNeeded := false } with
    | none => rw [hum] at h; exact absurd h (by simp)
    | some s1 =>
        rw [hum] at h
        dsimp only at h
        cases hpl : planPM ops s1 with
        | none => rw [hpl] at h; exact absurd h (by simp)
        | some s2 =>
            rw [hpl] at h
            dsimp only at h
            cases hev : evaluate s2 with
            | none => rw [hev] at h; exact absurd h (by simp)
            | some s3 =>
                rw [hev] at h
                cases h
                have hum2 := staykeep_updateModelLoop _ _ _ _ s1 hum
                have l1 : StayKeep s s1 :=
                  staykeep_trans (staykeep_of_eq rfl rfl) hum2
                have l2 : StayKeep s1 s2 := staykeep_planPM ops s1 s2 hpl
                have l3 : StayKeep s2 s3 := staykeep_evaluate s2 s3 hev
                have l4 : StayKeep s3
                    (if s3.pendingCount = 0 then solvedSet s3 true else s3) := by
                  split
                  · exact staykeep_solvedSet s3 true
                  · exact staykeep_refl s3
                exact staykeep_trans (staykeep_trans (staykeep_trans l1 l2) l3) l4
  · cases h
    exact staykeep_refl s

theorem recordConstraintChange_varsD_cgraph (s : PMState) (cid : Id) :
    (recordConstraintChange s cid).varsD = s.varsD ∧
    (recordConstraintChange s cid).cgraph = s.cgraph := by
  unfold recordConstraintChange recordChange solvedSet scheduleUpdate
  by_cases h1 : s.scheduleUpdateOnChange <;>
    by_cases h2 : s.isUpdateScheduled <;> simp [h1, h2]

theorem cg_addVariable_meths (g : ConstraintGraph) (vid : String) :
    (g.addVariable vid).meths = g.meths := by
  unfold ConstraintGraph.addVariable
  split <;> rfl

theorem cg_addVariable_mem_self (g : ConstraintGraph) (vid : String) :
    vid ∈ (g.addVariable vid).vars := by
  unfold ConstraintGraph.addVariable
  split
  · assumption
  · simp

theorem cg_addVariable_mem_mono (g : ConstraintGraph) (vid v : String)
    (h : v ∈ g.vars) : v ∈ (g.addVariable vid).vars := by
  unfold ConstraintGraph.addVariable
  split
  · exact h
  · exact List.mem_append_left _ h

theorem cg_addMethod_of_absent (g : ConstraintGraph) (mid cid : Id)
    (ins outs : List String) (hg : (alookup g.meths mid).isSome = false) :
    (g.addMethod mid cid ins outs).meths =
      g.meths ++ [(mid, ⟨cid, ins, outs⟩)] ∧
    (g.addMethod mid cid ins outs).vars = g.vars := by
  unfold ConstraintGraph.addMethod
  rw [if_neg (by simp [hg])]
  exact ⟨rfl, rfl⟩

theorem addVariable_fresh_parts (s : PMState) (vv : Variable)
    (hfresh : (alookup s.varsD vv.id).isSome = false) :
    (addVariable s vv).varsD = s.varsD ++ [(vv.id, vv)] ∧
    (addVariable s vv).cgraph =
      (s.cgraph.addVariable vv.id).addMethod (stayMethod vv.id)
        (stayConstraint vv.id) [] [vv.id] := by
  unfold addVariable
  rw [if_neg (by simp [hfresh])]
  dsimp only
  cases hp : vv.pending <;> cases ho : vv.optional <;>
    simp only [hp, ho, if_true, if_false, Bool.false_eq_true, ite_true,
      ite_false] <;>
    exact ⟨(recordConstraintChange_varsD_cgraph _ _).1,
      (recordConstraintChange_varsD_cgraph _ _).2⟩

theorem addVariable_regInv (s : PMState) (vv : Variable) (h : RegInv s)
    (hfresh : (alookup s.varsD vv.id).isSome = false) :
    RegInv (addVariable s vv) := by
  obtain ⟨hvd, hcg⟩ := addVariable_fresh_parts s vv hfresh
  have hcnt0 : countKey s.cgraph.meths (stayMethod vv.id) = 0 :=
    h.2.1 vv.id hfresh
  have hlknone : alookup s.cgraph.meths (stayMethod vv.id) = none :=
    alookup_none_of_countKey_zero _ _ hcnt0
  have hlknone1 : alookup (s.cgraph.addVariable vv.id).meths
      (stayMethod vv.id) = none := by rw [cg_addVariable_meths]; exact hlknone
  obtain ⟨hm, hvars⟩ := cg_addMethod_of_absent (s.cgraph.addVariable vv.id)
    (stayMethod vv.id) (stayConstraint vv.id) [] [vv.id]
    (by simp [hlknone1])
  rw [cg_addVariable_meths] at hm
  have hvnone : alookup s.varsD vv.id = none := by
    cases hl : alookup s.varsD vv.id with
    | none => rfl
    | some x => rw [hl] at hfresh; simp at hfresh
  refine ⟨?_, ?_, ?_⟩
  · intro vid hvid
    rw [hvd] at hvid
    rw [hcg, hm, hvars]
    by_cases he : vid = vv.id
    · subst he
      refine ⟨cg_addVariable_mem_self _ _, ?_, ?_⟩
      · rw [countKey_append, hcnt0]
        simp [countKey]
      · exact alookup_append_self_of_none _ _ _ hlknone
    · have hne : ¬ vv.id = vid := fun hx => he hx.symm
      rw [alookup_append_singleton_ne _ _ _ _ hne] at hvid
      obtain ⟨m1, m2, m3⟩ := h.1 vid hvid
      have hsne : ¬ stayMethod vv.id = stayMethod vid := by
        simp [stayMethod]
        exact fun hx => he hx.symm
      refine ⟨cg_addVariable_mem_mono _ _ _ m1, ?_, ?_⟩
      · rw [countKey_append, m2]
        simp [countKey, hsne]
      · rw [alookup_append_singleton_ne _ _ _ _ hsne]
        exact m3
  · intro vid hvid
    rw [hvd] at hvid
    rw [hcg, hm]
    by_cases he : vid = vv.id
    · subst he
      rw [alookup_append_self_of_none _ _ _ hvnone] at hvid
      simp at hvid
    · have hne : ¬ vv.id = vid := fun hx => he hx.symm
      rw [alookup_append_singleton_ne _ _ _ _ hne] at hvid
      have hsne : ¬ stayMethod vv.id = stayMethod vid := by
        simp [stayMethod]
        exact fun hx => he hx.symm
      rw [countKey_append, h.2.1 vid hvid]
      simp [countKey, hsne]
  · intro vid
    rw [hvd, countKey_append]
    by_cases he : vid = vv.id
    · subst he
      rw [countKey_eq_zero_of_alookup_none _ _ hvnone]
      simp [countKey]
    · have hne : ¬ vv.id = vid := fun hx => he hx.symm
      have : countKey [(vv.id, vv)] vid = 0 := by simp [countKey, hne]
      rw [this]
      simpa using h.2.2 vid

theorem removeVariable_regInv (s : PMState) (vv : Variable) (h : RegInv s) :
    RegInv (removeVariable s vv) := by
  unfold removeVariable
  split
  · next hcond =>
      obtain ⟨hreg, huse⟩ := hcond
      obtain ⟨hmem, hcnt1, hlk⟩ := h.1 vv.id hreg
      show RegInvOn (eraseKey s.varsD vv.id)
        ⟨s.cgraph.vars.erase vv.id,
         eraseKey s.cgraph.meths (stayMethod vv.id)⟩
      refine ⟨?_, ?_, ?_⟩
      · intro vid hvid
        by_cases he : vid = vv.id
        · subst he
          have hc1 : countKey s.varsD vv.id ≤ 1 := h.2.2 vv.id
          have hcpos : 0 < countKey s.varsD vv.id :=
            countKey_pos_of_alookup_isSome _ _ hreg
          have hz : countKey (eraseKey s.varsD vv.id) vv.id = 0 := by
            rw [countKey_eraseKey_self]
            omega
          rw [alookup_none_of_countKey_zero _ _ hz] at hvid
          simp at hvid
        · have hne : ¬ vv.id = vid := fun hx => he hx.symm
          rw [alookup_eraseKey_ne _ _ _ hne] at hvid
          obtain ⟨m1, m2, m3⟩ := h.1 vid hvid
          have hsne : ¬ stayMethod vv.id = stayMethod vid := by
            simp [stayMethod]
            exact fun hx => he hx.symm
          refine ⟨(List.mem_erase_of_ne he).2 m1, ?_, ?_⟩
          · rw [countKey_eraseKey_ne _ _ _ hsne]
            exact m2
          · rw [alookup_eraseKey_ne _ _ _ hsne]
            exact m3
      · intro vid hvid
        by_cases he : vid = vv.id
        · subst he
          show countKey (eraseKey s.cgraph.meths (stayMethod vv.id))
            (stayMethod vv.id) = 0
          rw [countKey_eraseKey_self, hcnt1]
        · have hne : ¬ vv.id = vid := fun hx => he hx.symm
          rw [alookup_eraseKey_ne _ _ _ hne] at hvid
          have hsne : ¬ stayMethod vv.id = stayMethod vid := by
            simp [stayMethod]
            exact fun hx => he hx.symm
          show countKey (eraseKey s.cgraph.meths (stayMethod vv.id))
            (stayMethod vid) = 0
          rw [countKey_eraseKey_ne _ _ _ hsne]
          exact h.2.1 vid hvid
      · intro vid
        by_cases he : vid = vv.id
        · subst he
          rw [countKey_eraseKey_self]
          have := h.2.2 vv.id
          omega
        · have hne : ¬ vv.id = vid := fun hx => he hx.symm
          rw [countKey_eraseKey_ne _ _ _ hne]
          exact h.2.2 vid
  · exact h

theorem step_regInv {s s' : PMState} (hstep : Step s s') (h : RegInv s) :
    RegInv s' := by
  cases hstep with
  | addVar s vv =>
      by_cases hf : (alookup s.varsD vv.id).isSome
      · have : addVariable s vv = s := by
          unfold addVariable
          rw [if_pos hf]
        rw [this]
        exact h
      · exact addVariable_regInv s vv h (by simpa using hf)
  | rmVar s vv => exact removeVariable_regInv s vv h
  | addCon s cc => exact regInv_transport (staykeep_addConstraint s cc) h
  | rmCon s cc s' hr => exact regInv_transport (staykeep_removeConstraint s cc s' hr) h
  | addOut s vv =>
      refine regInv_transport (staykeep_of_eq ?_ ?_) h <;>
        [exact (addOutput_removeOutput_frame s vv).1.1;
         exact (addOutput_removeOutput_frame s vv).1.2.2.2.1]
  | rmOut s vv =>
      refine regInv_transport (staykeep_of_eq ?_ ?_) h <;>
        [exact (addOutput_removeOutput_frame s vv).2.1;
         exact (addOutput_removeOutput_frame s vv).2.2.2.2.1]
  | addTD s e1 e2 =>
      refine regInv_transport ?_ h
      unfold addTouchDependency
      cases alookup s.touchDeps e1.cid <;> exact staykeep_of_eq rfl rfl
  | rmTD s e1 e2 =>
      refine regInv_transport ?_ h
      unfold removeTouchDependency
      cases alookup s.touchDeps e1.cid <;> exact staykeep_of_eq rfl rfl
  | ctxChange s ctx => exact regInv_transport (staykeep_recordContextChange s ctx) h
  | rmCtxRec s ctx => exact regInv_transport (staykeep_of_eq rfl rfl) h
  | varEvent fuel s ty vv s' he =>
      exact regInv_transport (staykeep_onNextVariableChange fuel s ty vv s' he) h
  | upd ops s s' hu => exact regInv_transport (staykeep_update ops s s' hu) h
  | schedUpd ops s s' hu =>
      refine regInv_transport ?_ h
      exact staykeep_trans (staykeep_of_eq rfl rfl)
        (staykeep_update ops { s with isUpdateScheduled := false } s' hu)
  | switchPlanner s =>
      exact regInv_transport
        (staykeep_foldl _ (fun t cid => staykeep_recordConstraintChange t cid) _ s) h

theorem regInv_initState : RegInv initState := by
  refine ⟨?_, ?_, ?_⟩
  · intro vid hv
    simp [initState, alookup] at hv
  · intro vid _
    rfl
  · intro vid
    show countKey ([] : List (String × Variable)) vid ≤ 1
    simp [countKey]

theorem reachable_regInv (s : PMState) (h : Reachable s) : RegInv s := by
  induction h with
  | refl => exact regInv_initState
  | tail hab hbc ih => exact step_regInv hbc ih

/-- C8: `addVariable` registers a fresh variable and adds exactly one stay
method for it — empty inputs, the variable as its single output, owned by the
variable's stay constraint — and is a no-op on an already-registered id; in
every reachable state, every registered variable id appears in the constraint
graph and has exactly one stay method whose single output is itself (and
unregistered ids have none). -/
theorem addVariable_stay_registry (s : PMState) (vv : Variable) :
    ((alookup s.varsD vv.id).isSome = true → addVariable s vv = s) ∧
    (Reachable s → RegInv s) ∧
    (Reachable s → (alookup s.varsD vv.id).isSome = false →
      (addVariable s vv).varsD = s.varsD ++ [(vv.id, vv)] ∧
      countKey (addVariable s vv).cgraph.meths (stayMethod vv.id) = 1 ∧
      alookup (addVariable s vv).cgraph.meths (stayMethod vv.id) =
        some ⟨stayConstraint vv.id, [], [vv.id]⟩ ∧
      vv.id ∈ (addVariable s vv).cgraph.vars ∧
      RegInv (addVariable s vv)) := by
  refine ⟨?_, fun hr => reachable_regInv s hr, ?_⟩
  · intro hreg
    unfold addVariable
    rw [if_pos hreg]
  · intro hr hfresh
    have hinv := reachable_regInv s hr
    have hinv' := addVariable_regInv s vv hinv hfresh
    have hparts := addVariable_fresh_parts s vv hfresh
    obtain ⟨m1, m2, m3⟩ := hinv'.1 vv.id
      (by rw [hparts.1]
          rw [alookup_append_self_of_none]
          · rfl
          · cases hl : alookup s.varsD vv.id with
            | none => rfl
            | some x => rw [hl] at hfresh; simp at hfresh)
    exact ⟨hparts.1, m2, m3, m1, hinv'⟩

/-- The variable used in the registry witness. -/
def xv : Variable := ⟨"x", Optional.Default, false, false, false⟩

/-- The registry discipline at concrete inputs: re-adding a registered
variable is a no-op, the constructor state satisfies the invariant, and a
fresh add on the constructor state registers the variable with its single
stay method. -/
theorem addVariable_stay_registry_witness :
    (addVariable (addVariable initState xv) xv = addVariable initState xv) ∧
    RegInv initState ∧
    ((addVariable initState xv).varsD = initState.varsD ++ [("x", xv)] ∧
      countKey (addVariable initState xv).cgraph.meths (stayMethod "x") = 1 ∧
      alookup (addVariable initState xv).cgraph.meths (stayMethod "x") =
        some ⟨stayConstraint "x", [], ["x"]⟩ ∧
      "x" ∈ (addVariable initState xv).cgraph.vars ∧
      RegInv (addVariable initState xv)) :=
  ⟨(addVariable_stay_registry (addVariable initState xv) xv).1 (by decide),
   (addVariable_stay_registry initState xv).2.1 Relation.ReflTransGen.refl,
   (addVariable_stay_registry initState xv).2.2 Relation.ReflTransGen.refl
     (by decide)⟩

end PropertyModel

end HotDrink
